import Mathlib

/-!
# Verification of the visitors-profile CSV synchronization core

A shallow embedding, over `List Char`, of the CSV codec, the batch-import
reconciler, the search handler and the single-record upsert-and-save
operation of the visitors-profile repository, together with theorems
settling the specification's claims about them.

Strings are modelled as `List Char`.  JavaScript's `undefined`/`null`
field values are modelled as `Option`; a JavaScript object is modelled as
an association list whose assignment updates a present key in place and
appends a fresh one (preserving JavaScript's key-insertion order).
-/

set_option maxHeartbeats 1000000

abbrev Str := List Char

/-- JavaScript whitespace as relevant here: space, tab, CR, LF. -/
def isWSC (c : Char) : Bool := c = ' ' || c = '\t' || c = '\r' || c = '\n'

/-- Left part of `String.prototype.trim`. -/
def trimL (l : Str) : Str := l.dropWhile isWSC

/-- Right part of `String.prototype.trim`: drop the trailing run of
whitespace. -/
def trimR : Str → Str
  | [] => []
  | c :: t =>
    match trimR t with
    | [] => if isWSC c then [] else [c]
    | r => c :: r

/-- `String.prototype.trim`. -/
def trimS (l : Str) : Str := trimR (trimL l)

/-- Drop one trailing CR from a reversed accumulator: the `\r?` part of
the `/\r?\n/` line separator. -/
def dropCR : Str → Str
  | '\r' :: t => t
  | l => l

/-- Worker for `text.split(/\r?\n/)`: `acc` holds the current line
reversed. -/
def splitNLAux : Str → Str → List Str
  | [], acc => [acc.reverse]
  | c :: r, acc =>
    if c = '\n' then (dropCR acc).reverse :: splitNLAux r []
    else splitNLAux r (c :: acc)

/-- `text.split(/\r?\n/)`. -/
def splitNL (s : Str) : List Str := splitNLAux s []

/-- Worker for `text.split(sep)` with a one-character separator. -/
def splitChAux (sep : Char) : Str → Str → List Str
  | [], acc => [acc.reverse]
  | c :: r, acc =>
    if c = sep then acc.reverse :: splitChAux sep r []
    else splitChAux sep r (c :: acc)

/-- `text.split(sep)` for one-character separators. -/
def splitChar (sep : Char) (s : Str) : List Str := splitChAux sep s []

/-- `line.split(',')`. -/
def splitComma (s : Str) : List Str := splitChar ',' s

/-- `list.join(sep)` for a one-character separator. -/
def joinSep (sep : Char) : List Str → Str
  | [] => []
  | [x] => x
  | x :: xs => x ++ sep :: joinSep sep xs

/-- `value.replace(/"/g, String.fromCharCode(34, 34))`: double every
double-quote. -/
def escQ : Str → Str
  | [] => []
  | c :: r => if c = '"' then '"' :: '"' :: escQ r else c :: escQ r

/-- `value.replace(/""/g, String.fromCharCode(34))`: collapse doubled
quotes left to right, non-overlapping. -/
def unescQ : Str → Str
  | [] => []
  | [c] => [c]
  | a :: b :: r =>
    if a = '"' ∧ b = '"' then '"' :: unescQ r else a :: unescQ (b :: r)

/-- Property read `row[k]`; `none` is a missing property. -/
def getF {α : Type} : List (Str × α) → Str → Option α
  | [], _ => none
  | (k', v) :: r, k => if k' = k then some v else getF r k

/-- Property write `row[k] = v`: update in place or append, preserving
JavaScript's key-insertion order. -/
def setField {α : Type} : List (Str × α) → Str → α → List (Str × α)
  | [], k, v => [(k, v)]
  | (k', v') :: r, k, v =>
    if k' = k then (k, v) :: r else (k', v') :: setField r k v

/-- A JavaScript object with string values: keys in insertion order. -/
abbrev Row := List (Str × Str)

namespace MainJS

/-!
## `src/main.js` — the quote-aware CSV codec

`parseCsv` (lines 47–103) and `stringifyCsv` (lines 111–135).
-/

/-- Strip/unescape one scanned token (`main.js` lines 70–74 and 80–84):
trim, then if the trimmed token both starts and ends with `"` and has at
least two characters, drop those quotes and unescape internal doubled
quotes.  (For the one-character token `"` JavaScript's
`substring(1, 0)` swaps its arguments and returns `"` unchanged, which
the length guard reproduces.) -/
def finalizeTok (tok : Str) : Str :=
  let t := trimS tok
  if 2 ≤ t.length ∧ t.head? = some '"' ∧ t.getLast? = some '"' then
    unescQ (t.drop 1).dropLast
  else t

/-- The character-by-character field scanner of `parseCsv`
(lines 58–84): `inQ` is the `inQuote` flag, `prev` the previous
character (`none` at position 0), `acc` the current field text. -/
def scanLine : Str → Bool → Option Char → Str → List Str
  | [], _, _, acc => [finalizeTok acc]
  | c :: rest, inQ, prev, acc =>
    if c = '"' ∧ prev ≠ some '\\' then
      scanLine rest (!inQ) (some c) (acc ++ [c])
    else if c = ',' ∧ inQ = false then
      finalizeTok acc :: scanLine rest inQ (some c) []
    else
      scanLine rest inQ (some c) (acc ++ [c])

/-- Header rename (line 90): `visitorId` becomes `id`. -/
def renameKey (h : Str) : Str :=
  if h = "visitorId".toList then "id".toList else h

/-- The assigned value `values[index] ? values[index].trim() : ''` for
the value list positioned at the current column. -/
def normV (vs : List Str) : Str :=
  match vs with
  | [] => []
  | s :: _ => if s = [] then [] else trimS s

/-- The `headers.forEach` row builder (lines 86–95): assign
`row[key] = values[index] ? values[index].trim() : ''` in header order,
latching `hasId` when an id-mapped column receives a non-empty value.
The value list is consumed positionally in lockstep with the headers. -/
def buildRowAux : List Str → List Str → Row → Bool → Row × Bool
  | [], _, row, h => (row, h)
  | k :: ks, vs, row, h =>
    buildRowAux ks vs.tail (setField row (renameKey k) (normV vs))
      (h || (renameKey k = "id".toList && !(normV vs).isEmpty))

def buildRow (headers : List Str) (values : List Str) : Row × Bool :=
  buildRowAux headers values [] false

/-- `parseCsv` of `src/main.js` (lines 47–103). -/
def parseCsv (s : Str) : List Row :=
  let lines := (splitNL s).filter (fun l => !(trimS l).isEmpty)
  match lines with
  | [] => []
  | hline :: dataLines =>
    let headers := (splitComma hline).map trimS
    dataLines.filterMap (fun line =>
      let values := scanLine line false none []
      let rh := buildRow headers values
      if rh.2 then some rh.1 else none)

/-- `needsQuotes` of `stringifyCsv` (line 122). -/
def needsQuotes (v : Str) : Bool := v.contains ',' || v.contains '"'

/-- Serialize one field (lines 119–129); `none` (a missing property) is
stringified to the empty field. -/
def serField : Option Str → Str
  | none => []
  | some v => if needsQuotes v then '"' :: (escQ v ++ ['"']) else v

/-- `stringifyCsv` of `src/main.js` (lines 111–135): header row from the
first record's keys, each row serialized in that key order, all joined
with `\n`. -/
def stringifyCsv (vs : List Row) : Str :=
  match vs with
  | [] => []
  | r0 :: _ =>
    let headers := r0.map Prod.fst
    joinSep '\n'
      (joinSep ',' headers ::
        vs.map (fun r => joinSep ',' (headers.map (fun h => serField (getF r h)))))

end MainJS

namespace ScriptJS

/-!
## `src/script.js` — naive CSV parse, batch import, search

`parseCsv` (lines 348–360), `handleImport` (lines 386–450),
`handleSearch` (lines 228–261), `uuidv4` (lines 577–582).
-/

/-- A JavaScript object whose property values may be `undefined`
(`none`): one parsed CSV row of the renderer's naive parser. -/
abbrev RowS := List (Str × Option Str)

/-- Property read giving `undefined` both for an absent key and for a
key assigned `undefined`. -/
def fld (r : RowS) (k : Str) : Option Str := (getF r k).getD none

/-- JavaScript truthiness of a possibly-undefined string. -/
def truthy : Option Str → Bool
  | some v => !v.isEmpty
  | none => false

/-- Row builder of the naive `parseCsv` (lines 353–357):
`visitor[header] = values[index]`, positionally, `undefined` past the
end of the value list. -/
def buildRowS : List Str → List Str → RowS → RowS
  | [], _, row => row
  | k :: ks, vs, row => buildRowS ks vs.tail (setField row k vs.head?)

/-- `parseCsv` of `src/script.js` (lines 348–360): trim the whole text,
split on bare `\n`, naive comma split per line, trim each cell, no
quote handling, no row-acceptance gate. -/
def parseCsv (s : Str) : List RowS :=
  match splitChar '\n' (trimS s) with
  | [] => []
  | hline :: rest =>
    let headers := (splitComma hline).map trimS
    rest.map (fun line => buildRowS headers ((splitComma line).map trimS) [])

/-- One stored visitor row of the `visitors` SQLite table.  `isBanned`
is the 0/1 integer the import writes; nullable columns are `Option`. -/
structure Rec where
  id : Str
  firstName : Option Str
  lastName : Option Str
  flatNumber : Option Str
  phoneNumber : Option Str
  dateOfBirth : Option Str
  scannedIdPicUrl : Option Str
  isBanned : Nat
  notes : Option Str
  generalNotes : Option Str
deriving Repr, DecidableEq

/-- `uuidv4`'s hex digit: `v.toString(16)` for `v < 16`. -/
def hexChar (n : Nat) : Char :=
  if n < 10 then Char.ofNat (48 + n) else Char.ofNat (87 + n)

def uuidTemplate : Str := "xxxxxxxx-xxxx-4xxx-yxxx-xxxxxxxxxxxx".toList

/-- Template walker of `uuidv4` (lines 577–582): each `x` or `y` draws
one random nibble (`Math.random()*16|0`, modelled by `rand k % 16` for
the `k`-th draw); `y` is masked to `8..b`; other characters are kept. -/
def uuidAux (rand : Nat → Nat) : Str → Nat → Str
  | [], _ => []
  | c :: cs, k =>
    if c = 'x' then hexChar (rand k % 16) :: uuidAux rand cs (k + 1)
    else if c = 'y' then hexChar ((rand k % 16) &&& 3 ||| 8) :: uuidAux rand cs (k + 1)
    else c :: uuidAux rand cs k

/-- `uuidv4` (lines 577–582) for one sequence of random draws. -/
def uuidv4 (rand : Nat → Nat) : Str := uuidAux rand uuidTemplate 0

/-- Row-validation gate of `handleImport` (line 396): skip a row whose
`firstName` or `lastName` is falsy. -/
def acceptRow (r : RowS) : Bool :=
  truthy (fld r "firstName".toList) && truthy (fld r "lastName".toList)

/-- `visitor.id || uuidv4()` (line 400): the supplied id when truthy,
otherwise the next fresh identifier from the supply `gen`; returns the
advanced draw counter. -/
def resolveId (gen : Nat → Str) (n : Nat) (r : RowS) : Str × Nat :=
  match fld r "id".toList with
  | some v => if v.isEmpty then (gen n, n + 1) else (v, n)
  | none => (gen n, n + 1)

/-- `isBanned` normalization (line 401): `'true'` or `'1'` maps to 1,
anything else to 0. -/
def isBannedVal (r : RowS) : Nat :=
  if fld r "isBanned".toList = some "true".toList ∨ fld r "isBanned".toList = some "1".toList
  then 1 else 0

/-- The `UPDATE visitors SET …` of line 406: overwrite the eight listed
columns, leave `id` and `generalNotes` untouched. -/
def updRec (rec : Rec) (r : RowS) (isB : Nat) : Rec :=
  { rec with
    firstName := fld r "firstName".toList
    lastName := fld r "lastName".toList
    flatNumber := fld r "flatNumber".toList
    phoneNumber := fld r "phoneNumber".toList
    dateOfBirth := fld r "dateOfBirth".toList
    scannedIdPicUrl := fld r "scannedIdPicUrl".toList
    isBanned := isB
    notes := fld r "notes".toList }

/-- The `INSERT INTO visitors …` of line 422: all columns from the row,
`generalNotes` hard-coded to the empty string. -/
def mkRec (vid : Str) (r : RowS) (isB : Nat) : Rec :=
  { id := vid
    firstName := fld r "firstName".toList
    lastName := fld r "lastName".toList
    flatNumber := fld r "flatNumber".toList
    phoneNumber := fld r "phoneNumber".toList
    dateOfBirth := fld r "dateOfBirth".toList
    scannedIdPicUrl := fld r "scannedIdPicUrl".toList
    isBanned := isB
    notes := fld r "notes".toList
    generalNotes := some [] }

/-- One iteration of the import loop (lines 395–439) on
(store, uuid-draw counter): skip unnamed rows; otherwise probe by id
(`SELECT * FROM visitors WHERE id = ?`) and update every matching row
in place, or append a fresh record. -/
def importStep (gen : Nat → Str) : List Rec × Nat → RowS → List Rec × Nat :=
  fun sn r =>
    if !acceptRow r then sn
    else
      let vn := resolveId gen sn.2 r
      let isB := isBannedVal r
      if ∃ rec ∈ sn.1, rec.id = vn.1 then
        (sn.1.map (fun rec => if rec.id = vn.1 then updRec rec r isB else rec), vn.2)
      else
        (sn.1 ++ [mkRec vn.1 r isB], vn.2)

/-- The committed import loop when no unexpected exception occurs. -/
def runImport (gen : Nat → Str) (S : List Rec) (n : Nat) (rows : List RowS) :
    List Rec × Nat :=
  rows.foldl (importStep gen) (S, n)

/-- `handleImport` (lines 386–450) on the happy path: parse with the
naive parser, then fold the import loop inside the transaction. -/
def handleImport (gen : Nat → Str) (S : List Rec) (n : Nat) (csv : Str) :
    List Rec × Nat :=
  runImport gen S n (parseCsv csv)

/-- Import loop under an exception oracle `boom`: a row that passes
validation but for which `boom` fires throws mid-loop, and the
`catch` runs `ROLLBACK`, so the committed store is the pre-import
store `S0`.  Validation skips never consult `boom`. -/
def importGoE (boom : RowS → Bool) (gen : Nat → Str) (S0 : List Rec) :
    List RowS → List Rec × Nat → List Rec × Nat
  | [], sn => sn
  | r :: rs, sn =>
    if !acceptRow r then importGoE boom gen S0 rs sn
    else if boom r then (S0, sn.2)
    else importGoE boom gen S0 rs (importStep gen sn r)

/-- `handleImport` under the exception oracle. -/
def handleImportE (boom : RowS → Bool) (gen : Nat → Str) (S : List Rec)
    (n : Nat) (csv : Str) : List Rec × Nat :=
  importGoE boom gen S (parseCsv csv) (S, n)

/-- A visitor as consulted by the search handler: the name fields it
reads. -/
structure SVisitor where
  id : Str
  firstName : Str
  lastName : Str
deriving Repr, DecidableEq

/-- `s.toLowerCase()` (ASCII). -/
def toLowerS (s : Str) : Str := s.map Char.toLower

def isPrefB : Str → Str → Bool
  | [], _ => true
  | _ :: _, [] => false
  | a :: as, b :: bs => a == b && isPrefB as bs

/-- `hay.includes(needle)`. -/
def isInfB : Str → Str → Bool
  | n, [] => isPrefB n []
  | n, b :: bs => isPrefB n (b :: bs) || isInfB n bs

/-- Worker for `searchTerm.split(/\s+/)` (before the non-empty
filter): split at every whitespace character. -/
def splitWSAux : Str → Str → List Str
  | [], acc => [acc.reverse]
  | c :: r, acc =>
    if isWSC c then acc.reverse :: splitWSAux r []
    else splitWSAux r (c :: acc)

def splitWS (s : Str) : List Str := splitWSAux s []

/-- What `handleSearch` does with the matches. -/
inductive SearchOutcome where
  | cleared
  | exactMatch (v : SVisitor)
  | results (vs : List SVisitor)
deriving Repr, DecidableEq

/-- The per-visitor filter (lines 242–248): every token is a substring
of the lowercased first or last name, each guarded by truthiness. -/
def matchesTerms (terms : List Str) (v : SVisitor) : Bool :=
  terms.all (fun t =>
    (!v.firstName.isEmpty && isInfB t (toLowerS v.firstName)) ||
    (!v.lastName.isEmpty && isInfB t (toLowerS v.lastName)))

/-- `handleSearch` (lines 228–261): lowercase and trim the query; empty
query clears; otherwise filter by tokens, and if some candidate's
`"firstName lastName"` (lowercased) equals the whole query, return it
alone, else return all candidates in store order. -/
def handleSearch (q : Str) (visitorsList : List SVisitor) : SearchOutcome :=
  let searchTerm := trimS (toLowerS q)
  if searchTerm.isEmpty then .cleared
  else
    let terms := (splitWS searchTerm).filter (fun t => !t.isEmpty)
    let found := visitorsList.filter (matchesTerms terms)
    match found.find? (fun v =>
        (toLowerS v.firstName ++ ' ' :: toLowerS v.lastName) == searchTerm) with
    | some v => .exactMatch v
    | none => .results found

end ScriptJS

namespace MainJS

/-!
## `src/main.js` — the `dialog:updateAndSaveCsvFile` handler

Lines 162–194.
-/

/-- The `findIndex` predicate of line 174:
`v.id && updatedVisitor.id && v.id.trim() === updatedVisitor.id.trim()`. -/
def idMatch (v u : Row) : Bool :=
  match getF v "id".toList, getF u "id".toList with
  | some a, some b => !a.isEmpty && !b.isEmpty && trimS a == trimS b
  | _, _ => false

/-- The upsert on the parsed row set (lines 174–182): `findIndex` on
truthy, trim-equal ids; replace in place on a hit, append otherwise. -/
def updateVisitors (visitors : List Row) (u : Row) : List Row :=
  match visitors.findIdx? (fun v => idMatch v u) with
  | some i => visitors.set i u
  | none => visitors ++ [u]

structure SaveResult where
  success : Bool
  error : Option Str
deriving Repr, DecidableEq

/-- A file-system side effect of the handler. -/
inductive FOp where
  | readF (p : Str)
  | writeF (p : Str) (content : Str)
deriving Repr, DecidableEq

/-- `dialog:updateAndSaveCsvFile` (lines 162–194): with no remembered
path, fail without touching any file; otherwise read, parse, upsert,
stringify and write back, reporting success.  The second component
records the file operations performed. -/
def updateAndSaveCsvFile (lastUsedFilePath : Option Str) (fileContent : Str)
    (u : Row) : SaveResult × List FOp :=
  match lastUsedFilePath with
  | none =>
    ({ success := false
       error := some "No file has been selected for saving yet.".toList }, [])
  | some p =>
    let visitors := parseCsv fileContent
    let updated := updateVisitors visitors u
    ({ success := true, error := none }, [.readF p, .writeF p (stringifyCsv updated)])

end MainJS

/-!
## Predicates used by the claim statements
-/

namespace MainJS

/-- `v` contains a backslash immediately followed by a double quote. -/
def hasBSQ : Str → Bool
  | a :: b :: r => (a = '\\' && b = '"') || hasBSQ (b :: r)
  | _ => false

/-- A field value that serializes without putting a backslash directly
before a double quote: it has no `\"` inside, and if it gets quoted it
does not end in a backslash.  Such values are exactly the ones the
quote scanner can re-tokenize. -/
def goodVal (v : Str) : Bool :=
  !hasBSQ v && !(needsQuotes v && v.getLast? == some '\\')

/-- Every field value of every record satisfies `goodVal`. -/
def goodRecs (vs : List Row) : Bool :=
  vs.all (fun r => r.all (fun kv => goodVal kv.2))

/-- Every record carries a non-empty `id` value. -/
def idsOk (vs : List Row) : Bool :=
  vs.all (fun r => match getF r "id".toList with
    | some v => !v.isEmpty
    | none => false)

/-- The (renamed) key list a CSV text's header line resolves to. -/
def headKeys (s : Str) : List Str :=
  match (splitNL s).filter (fun l => !(trimS l).isEmpty) with
  | [] => []
  | h :: _ => ((splitComma h).map trimS).map renameKey

/-- The trimmed id a parsed row exposes to the upsert comparison. -/
def rowIdTrim (v : Row) : Str :=
  match getF v "id".toList with
  | some a => trimS a
  | none => []

/-- The value-list normalization applied column by column: what
`buildRowAux` assigns across an `n`-column header. -/
def normTake : Nat → List Str → List Str
  | 0, _ => []
  | n + 1, vs => normV vs :: normTake n vs.tail

/-- Whether the `hasId` latch fires across the given headers/values. -/
def hasIdB : List Str → List Str → Bool
  | [], _ => false
  | k :: ks, vs =>
    (renameKey k = "id".toList && !(normV vs).isEmpty) || hasIdB ks vs.tail

/-- Object-key insertion: what one assignment does to the key list. -/
def insKey (acc : List Str) (k : Str) : List Str :=
  if k ∈ acc then acc else acc ++ [k]

/-- The key list a JavaScript object ends up with after assigning the
given keys in order. -/
def dedupKeys (ks : List Str) : List Str := ks.foldl insKey []

end MainJS

namespace ScriptJS

/-!
## Proof-support forms of the import loop
-/

/-- The id a row supplies on its own (empty if absent). -/
def suppliedId (r : RowS) : Str := (fld r "id".toList).getD []

/-- The import step in the case in which the row supplies its own
non-empty id, so that the uuid supply is not consulted. -/
def stepFixed (S : List Rec) (r : RowS) : List Rec :=
  if !acceptRow r then S
  else if ∃ rec ∈ S, rec.id = suppliedId r then
    S.map (fun rec =>
      if rec.id = suppliedId r then updRec rec r (isBannedVal r) else rec)
  else S ++ [mkRec (suppliedId r) r (isBannedVal r)]

/-- What one row does to one stored record under `stepFixed`'s update
branch: overwrite the eight columns when the ids agree. -/
def phiRow (r : RowS) (rec : Rec) : Rec :=
  if acceptRow r = true ∧ rec.id = suppliedId r then
    updRec rec r (isBannedVal r)
  else rec

/-- All rows applied in order to one record. -/
def chainRows (rows : List RowS) (rec : Rec) : Rec :=
  rows.foldl (fun x r => phiRow r x) rec

/-- The last accepted row carrying the given id, if any. -/
def lastMatch (rows : List RowS) (x : Str) : Option RowS :=
  (rows.filter (fun r => acceptRow r && suppliedId r == x)).getLast?

end ScriptJS

/-!
## Utility lemmas: trimming
-/

theorem trimL_head_not_ws {l : Str} {c : Char} (h : (trimL l).head? = some c) :
    isWSC c = false := by
  induction l with
  | nil => simp [trimL] at h
  | cons a t ih =>
    rw [trimL, List.dropWhile_cons] at h
    by_cases hws : isWSC a
    · simp [hws] at h
      exact ih h
    · simp [hws] at h
      rw [← h]
      simpa using hws

theorem trimL_getLast? {l : Str} {c : Char} (h : (trimL l).getLast? = some c) :
    l.getLast? = some c := by
  induction l with
  | nil => simp [trimL] at h
  | cons a t ih =>
    rw [trimL, List.dropWhile_cons] at h
    by_cases hws : isWSC a
    · simp [hws] at h
      have ht := ih h
      cases t with
      | nil => simp at ht
      | cons b t' => rw [List.getLast?_cons_cons]; exact ht
    · simp [hws] at h
      exact h

theorem trimL_eq_self {l : Str} (h : ∀ c, l.head? = some c → isWSC c = false) :
    trimL l = l := by
  cases l with
  | nil => rfl
  | cons a t =>
    rw [trimL, List.dropWhile_cons]
    simp [h a rfl]

theorem mem_trimL {l : Str} {c : Char} (h : c ∈ trimL l) : c ∈ l := by
  induction l with
  | nil => simp [trimL] at h
  | cons a t ih =>
    rw [trimL, List.dropWhile_cons] at h
    by_cases hws : isWSC a
    · simp [hws] at h
      exact List.mem_cons_of_mem _ (ih h)
    · simpa [hws] using h

theorem trimR_head? {l : Str} {c : Char} (h : (trimR l).head? = some c) :
    l.head? = some c := by
  induction l with
  | nil => simp [trimR] at h
  | cons a t ih =>
    rw [trimR] at h
    cases htr : trimR t with
    | nil =>
      rw [htr] at h
      by_cases hws : isWSC a <;> simp [hws] at h
      simp [h]
    | cons b r =>
      rw [htr] at h
      simp at h
      simp [h]

theorem trimR_last_not_ws {l : Str} {c : Char} (h : (trimR l).getLast? = some c) :
    isWSC c = false := by
  induction l with
  | nil => simp [trimR] at h
  | cons a t ih =>
    rw [trimR] at h
    cases htr : trimR t with
    | nil =>
      rw [htr] at h
      by_cases hws : isWSC a <;> simp [hws] at h
      simp [← h]
      simpa using hws
    | cons b r =>
      rw [htr] at h
      rw [List.getLast?_cons_cons] at h
      exact ih (htr ▸ h)

theorem trimR_eq_self {l : Str} (h : ∀ c, l.getLast? = some c → isWSC c = false) :
    trimR l = l := by
  induction l with
  | nil => rfl
  | cons a t ih =>
    rw [trimR]
    cases t with
    | nil =>
      have := h a (by simp)
      simp [trimR, this]
    | cons b t' =>
      have ht : trimR (b :: t') = b :: t' := by
        apply ih
        intro c hc
        apply h
        rw [List.getLast?_cons_cons]
        exact hc
      rw [ht]

theorem mem_trimR {l : Str} {c : Char} (h : c ∈ trimR l) : c ∈ l := by
  induction l with
  | nil => simp [trimR] at h
  | cons a t ih =>
    rw [trimR] at h
    cases htr : trimR t with
    | nil =>
      rw [htr] at h
      by_cases hws : isWSC a <;> simp [hws] at h
      simp [h]
    | cons b r =>
      rw [htr] at h
      rcases List.mem_cons.mp h with h' | h'
      · simp [h']
      · exact List.mem_cons_of_mem _ (ih (htr ▸ h'))

theorem trimS_head_not_ws {l : Str} {c : Char} (h : (trimS l).head? = some c) :
    isWSC c = false :=
  trimL_head_not_ws (trimR_head? h)

theorem trimS_last_not_ws {l : Str} {c : Char} (h : (trimS l).getLast? = some c) :
    isWSC c = false :=
  trimR_last_not_ws h

theorem trimS_eq_self {l : Str}
    (hh : ∀ c, l.head? = some c → isWSC c = false)
    (hl : ∀ c, l.getLast? = some c → isWSC c = false) :
    trimS l = l := by
  rw [trimS, trimL_eq_self hh, trimR_eq_self hl]

theorem trimS_idem (l : Str) : trimS (trimS l) = trimS l :=
  trimS_eq_self (fun _ h => trimS_head_not_ws h) (fun _ h => trimS_last_not_ws h)

theorem mem_trimS {l : Str} {c : Char} (h : c ∈ trimS l) : c ∈ l :=
  mem_trimL (mem_trimR h)

theorem trimmed_head_not_ws {l : Str} {c : Char} (ht : trimS l = l)
    (h : l.head? = some c) : isWSC c = false :=
  trimS_head_not_ws (ht ▸ h)

theorem trimmed_last_not_ws {l : Str} {c : Char} (ht : trimS l = l)
    (h : l.getLast? = some c) : isWSC c = false :=
  trimS_last_not_ws (ht ▸ h)

theorem mem_trimL_of {l : Str} {c : Char} (hc : c ∈ l) (hws : isWSC c = false) :
    c ∈ trimL l := by
  induction l with
  | nil => simp at hc
  | cons a t ih =>
    rw [trimL, List.dropWhile_cons]
    rcases List.mem_cons.mp hc with h' | h'
    · subst h'
      simp [hws]
    · by_cases hwa : isWSC a
      · simp only [hwa, if_pos]
        exact ih h'
      · simp only [hwa, if_neg, Bool.false_eq_true, not_false_iff]
        exact List.mem_cons_of_mem _ h'

theorem mem_trimR_of {l : Str} {c : Char} (hc : c ∈ l) (hws : isWSC c = false) :
    c ∈ trimR l := by
  induction l with
  | nil => simp at hc
  | cons a t ih =>
    rw [trimR]
    rcases List.mem_cons.mp hc with h' | h'
    · subst h'
      cases htr : trimR t with
      | nil => simp [hws]
      | cons b r => simp
    · have := ih h'
      cases htr : trimR t with
      | nil => rw [htr] at this; simp at this
      | cons b r =>
        rw [htr] at this
        exact List.mem_cons_of_mem _ this

theorem mem_trimS_of {l : Str} {c : Char} (hc : c ∈ l) (hws : isWSC c = false) :
    c ∈ trimS l :=
  mem_trimR_of (mem_trimL_of hc hws) hws

theorem trimS_ne_nil_of_mem {l : Str} {c : Char} (hc : c ∈ l)
    (hws : isWSC c = false) : trimS l ≠ [] := by
  intro hnil
  have h2 := mem_trimS_of hc hws
  rw [hnil] at h2
  simp at h2

/-!
## Utility lemmas: splitting, joining, quote escaping
-/

theorem getLast?_cons_ne_nil {α : Type} {a : α} {t : List α} (h : t ≠ []) :
    (a :: t).getLast? = t.getLast? := by
  cases t with
  | nil => exact absurd rfl h
  | cons b t' => exact List.getLast?_cons_cons

theorem joinSep_cons_ne {sep : Char} {x : Str} {xs : List Str} (h : xs ≠ []) :
    joinSep sep (x :: xs) = x ++ sep :: joinSep sep xs := by
  cases xs with
  | nil => exact absurd rfl h
  | cons y ys => rfl

theorem mem_dropCR {l : Str} {c : Char} (h : c ∈ dropCR l) : c ∈ l := by
  unfold dropCR at h
  split at h
  · exact List.mem_cons_of_mem _ h
  · exact h

theorem dropCR_eq_self {l : Str} (h : l.head? ≠ some '\r') : dropCR l = l := by
  unfold dropCR
  split
  · simp at h
  · rfl

theorem splitNLAux_app {l : Str} (hl : ∀ c ∈ l, c ≠ '\n') :
    ∀ (rest acc : Str), splitNLAux (l ++ rest) acc = splitNLAux rest (l.reverse ++ acc) := by
  induction l with
  | nil => intro rest acc; simp
  | cons a t ih =>
    intro rest acc
    have ha : a ≠ '\n' := hl a (List.mem_cons_self a t)
    rw [List.cons_append, splitNLAux, if_neg (by simpa using ha)]
    rw [ih (fun c hc => hl c (List.mem_cons_of_mem _ hc)) rest (a :: acc)]
    simp

theorem splitNLAux_no_nl :
    ∀ (s acc : Str), (∀ c ∈ acc, c ≠ '\n') →
      ∀ l ∈ splitNLAux s acc, ∀ c ∈ l, c ≠ '\n' := by
  intro s
  induction s with
  | nil =>
    intro acc hacc l hl c hc
    rw [splitNLAux] at hl
    simp at hl
    subst hl
    exact hacc c (by simpa using hc)
  | cons a s' ih =>
    intro acc hacc l hl c hc
    rw [splitNLAux] at hl
    by_cases ha : a = '\n'
    · rw [if_pos ha] at hl
      rcases List.mem_cons.mp hl with h' | h'
      · subst h'
        exact hacc c (mem_dropCR (by simpa using hc))
      · exact ih [] (by simp) l h' c hc
    · rw [if_neg ha] at hl
      refine ih (a :: acc) ?_ l hl c hc
      intro c' hc'
      rcases List.mem_cons.mp hc' with h' | h'
      · subst h'; exact ha
      · exact hacc c' h'

theorem splitNL_no_nl {s : Str} {l : Str} (hl : l ∈ splitNL s) {c : Char}
    (hc : c ∈ l) : c ≠ '\n' :=
  splitNLAux_no_nl s [] (by simp) l hl c hc

theorem splitNL_joinSep : ∀ (lines : List Str), lines ≠ [] →
    (∀ l ∈ lines, (∀ c ∈ l, c ≠ '\n') ∧ l.getLast? ≠ some '\r') →
    splitNL (joinSep '\n' lines) = lines := by
  intro lines
  induction lines with
  | nil => intro h; exact absurd rfl h
  | cons x xs ih =>
    intro _ hcond
    cases xs with
    | nil =>
      show splitNLAux (joinSep '\n' [x]) [] = [x]
      have : joinSep '\n' [x] = x ++ [] := by simp [joinSep]
      rw [this, splitNLAux_app (hcond x (by simp)).1]
      rw [splitNLAux]
      simp
    | cons y ys =>
      show splitNLAux (joinSep '\n' (x :: y :: ys)) [] = x :: y :: ys
      rw [joinSep_cons_ne (by simp)]
      rw [splitNLAux_app (hcond x (by simp)).1]
      rw [splitNLAux, if_pos rfl]
      have hdc : dropCR (x.reverse ++ []) = x.reverse := by
        rw [List.append_nil]
        apply dropCR_eq_self
        rw [List.head?_reverse]
        exact (hcond x (by simp)).2
      rw [hdc, List.reverse_reverse]
      congr 1
      exact ih (by simp) (fun l hl => hcond l (List.mem_cons_of_mem _ hl))

theorem splitChAux_app {sep : Char} {l : Str} (hl : ∀ c ∈ l, c ≠ sep) :
    ∀ (rest acc : Str),
      splitChAux sep (l ++ rest) acc = splitChAux sep rest (l.reverse ++ acc) := by
  induction l with
  | nil => intro rest acc; simp
  | cons a t ih =>
    intro rest acc
    have ha : a ≠ sep := hl a (List.mem_cons_self a t)
    rw [List.cons_append, splitChAux, if_neg (by simpa using ha)]
    rw [ih (fun c hc => hl c (List.mem_cons_of_mem _ hc)) rest (a :: acc)]
    simp

theorem splitChAux_no_sep {sep : Char} :
    ∀ (s acc : Str), (∀ c ∈ acc, c ≠ sep) →
      ∀ l ∈ splitChAux sep s acc, ∀ c ∈ l, c ≠ sep := by
  intro s
  induction s with
  | nil =>
    intro acc hacc l hl c hc
    rw [splitChAux] at hl
    simp at hl
    subst hl
    exact hacc c (by simpa using hc)
  | cons a s' ih =>
    intro acc hacc l hl c hc
    rw [splitChAux] at hl
    by_cases ha : a = sep
    · rw [if_pos ha] at hl
      rcases List.mem_cons.mp hl with h' | h'
      · subst h'
        exact hacc c (by simpa using hc)
      · exact ih [] (by simp) l h' c hc
    · rw [if_neg ha] at hl
      refine ih (a :: acc) ?_ l hl c hc
      intro c' hc'
      rcases List.mem_cons.mp hc' with h' | h'
      · subst h'; exact ha
      · exact hacc c' h'

theorem splitChar_no_sep {sep : Char} {s l : Str} (hl : l ∈ splitChar sep s)
    {c : Char} (hc : c ∈ l) : c ≠ sep :=
  splitChAux_no_sep s [] (by simp) l hl c hc

theorem splitChar_joinSep {sep : Char} : ∀ (pieces : List Str), pieces ≠ [] →
    (∀ p ∈ pieces, ∀ c ∈ p, c ≠ sep) →
    splitChar sep (joinSep sep pieces) = pieces := by
  intro pieces
  induction pieces with
  | nil => intro h; exact absurd rfl h
  | cons x xs ih =>
    intro _ hcond
    cases xs with
    | nil =>
      show splitChAux sep (joinSep sep [x]) [] = [x]
      have : joinSep sep [x] = x ++ [] := by simp [joinSep]
      rw [this, splitChAux_app (hcond x (by simp))]
      rw [splitChAux]
      simp
    | cons y ys =>
      show splitChAux sep (joinSep sep (x :: y :: ys)) [] = x :: y :: ys
      rw [joinSep_cons_ne (by simp)]
      rw [splitChAux_app (hcond x (by simp))]
      rw [splitChAux, if_pos rfl]
      simp only [List.append_nil, List.reverse_reverse]
      congr 1
      exact ih (by simp) (fun l hl => hcond l (List.mem_cons_of_mem _ hl))

theorem escQ_eq_nil {v : Str} : escQ v = [] ↔ v = [] := by
  cases v with
  | nil => simp [escQ]
  | cons a r =>
    rw [escQ]
    constructor
    · intro h
      by_cases ha : a = '"' <;> simp [ha] at h
    · intro h; simp at h

theorem unescQ_escQ : ∀ (v : Str), unescQ (escQ v) = v := by
  intro v
  induction v with
  | nil => rfl
  | cons a r ih =>
    rw [escQ]
    by_cases ha : a = '"'
    · rw [if_pos ha, unescQ, if_pos ⟨rfl, rfl⟩, ih, ha]
    · rw [if_neg ha]
      cases her : escQ r with
      | nil =>
        have : r = [] := escQ_eq_nil.mp her
        subst this
        rfl
      | cons b rest =>
        rw [unescQ, if_neg (by intro hcon; exact ha hcon.1)]
        rw [← her, ih]

theorem mem_escQ {v : Str} {c : Char} (h : c ∈ escQ v) : c ∈ v ∨ c = '"' := by
  induction v with
  | nil => simp [escQ] at h
  | cons a r ih =>
    rw [escQ] at h
    by_cases ha : a = '"'
    · rw [if_pos ha] at h
      rcases List.mem_cons.mp h with h' | h'
      · exact Or.inr h'
      · rcases List.mem_cons.mp h' with h'' | h''
        · exact Or.inr h''
        · rcases ih h'' with h3 | h3
          · exact Or.inl (List.mem_cons_of_mem _ h3)
          · exact Or.inr h3
    · rw [if_neg ha] at h
      rcases List.mem_cons.mp h with h' | h'
      · exact Or.inl (h' ▸ List.mem_cons_self a r)
      · rcases ih h' with h3 | h3
        · exact Or.inl (List.mem_cons_of_mem _ h3)
        · exact Or.inr h3

theorem mem_escQ_of {v : Str} {c : Char} (h : c ∈ v) : c ∈ escQ v := by
  induction v with
  | nil => simp at h
  | cons a r ih =>
    rw [escQ]
    rcases List.mem_cons.mp h with h' | h'
    · subst h'
      by_cases ha : c = '"'
      · rw [if_pos ha, ha]; simp
      · rw [if_neg ha]; simp
    · by_cases ha : a = '"'
      · rw [if_pos ha]
        exact List.mem_cons_of_mem _ (List.mem_cons_of_mem _ (ih h'))
      · rw [if_neg ha]
        exact List.mem_cons_of_mem _ (ih h')

theorem escQ_getLast? : ∀ (v : Str), (escQ v).getLast? = v.getLast? := by
  intro v
  induction v with
  | nil => rfl
  | cons a r ih =>
    rw [escQ]
    cases r with
    | nil =>
      by_cases ha : a = '"'
      · subst ha; simp [escQ]
      · rw [if_neg ha]; simp [escQ]
    | cons b r' =>
      have hne : escQ (b :: r') ≠ [] := fun hcon => by
        simpa using escQ_eq_nil.mp hcon
      by_cases ha : a = '"'
      · rw [if_pos ha, getLast?_cons_ne_nil (by simp [hne]), getLast?_cons_ne_nil hne, ih,
          List.getLast?_cons_cons]
      · rw [if_neg ha, getLast?_cons_ne_nil hne, ih, List.getLast?_cons_cons]

/-!
## The field scanner inverts field serialization
-/

theorem hasBSQ_tail {a : Char} {t : Str} (h : MainJS.hasBSQ (a :: t) = false) :
    MainJS.hasBSQ t = false := by
  cases t with
  | nil => rfl
  | cons b r =>
    rw [MainJS.hasBSQ] at h
    exact (Bool.or_eq_false_iff.mp h).2

theorem hasBSQ_head {b : Char} {t : Str} (h : MainJS.hasBSQ ('\\' :: b :: t) = false) :
    b ≠ '"' := by
  rw [MainJS.hasBSQ] at h
  have := (Bool.or_eq_false_iff.mp h).1
  intro hb
  subst hb
  simp at this

namespace MainJS

theorem scanLine_nil (inQ : Bool) (prev : Option Char) (acc : Str) :
    scanLine [] inQ prev acc = [finalizeTok acc] := rfl

theorem scanLine_cons (c : Char) (rest : Str) (inQ : Bool) (prev : Option Char)
    (acc : Str) :
    scanLine (c :: rest) inQ prev acc =
      if c = '"' ∧ prev ≠ some '\\' then
        scanLine rest (!inQ) (some c) (acc ++ [c])
      else if c = ',' ∧ inQ = false then
        finalizeTok acc :: scanLine rest inQ (some c) []
      else
        scanLine rest inQ (some c) (acc ++ [c]) := rfl

theorem finalizeTok_plain {v : Str} (ht : trimS v = v) (hq : '"' ∉ v) :
    finalizeTok v = v := by
  rw [finalizeTok]
  simp only [ht]
  rw [if_neg]
  intro hcon
  exact hq (List.mem_of_mem_head? hcon.2.1)

theorem finalizeTok_quoted (v : Str) :
    finalizeTok ('"' :: (escQ v ++ ['"'])) = v := by
  have hlast : ('"' :: (escQ v ++ ['"'])).getLast? = some '"' := by
    rw [getLast?_cons_ne_nil (by simp), List.getLast?_concat]
  have htrim : trimS ('"' :: (escQ v ++ ['"'])) = '"' :: (escQ v ++ ['"']) := by
    apply trimS_eq_self
    · intro c hc
      simp at hc
      subst hc
      decide
    · intro c hc
      rw [hlast] at hc
      cases hc
      decide
  unfold finalizeTok
  rw [htrim, if_pos ⟨by simp, rfl, hlast⟩]
  rw [List.drop_one, List.tail_cons, List.dropLast_concat, unescQ_escQ]

theorem getLast?_or_cons {α : Type} (a : α) (w : List α) (prev : Option α) :
    ((a :: w).getLast?).or prev = (w.getLast?).or (some a) := by
  cases w with
  | nil => simp
  | cons b t =>
    rw [List.getLast?_cons_cons]
    cases hg : (b :: t).getLast? with
    | none => rw [List.getLast?_eq_none_iff] at hg; simp at hg
    | some x => simp

theorem scanLine_plain (inQ : Bool) :
    ∀ (w : Str), (∀ c ∈ w, c ≠ '"' ∧ (inQ = false → c ≠ ',')) →
    ∀ (rest acc : Str) (prev : Option Char),
      scanLine (w ++ rest) inQ prev acc =
        scanLine rest inQ ((w.getLast?).or prev) (acc ++ w) := by
  intro w
  induction w with
  | nil => intro _ rest acc prev; simp
  | cons a w' ih =>
    intro hw rest acc prev
    have ha := hw a (List.mem_cons_self a w')
    rw [List.cons_append, scanLine_cons,
      if_neg (by intro hcon; exact ha.1 hcon.1),
      if_neg (by
        intro hcon
        exact ha.2 hcon.2 hcon.1)]
    rw [ih (fun c hc => hw c (List.mem_cons_of_mem _ hc)) rest (acc ++ [a]) (some a)]
    rw [getLast?_or_cons]
    simp

theorem scanLine_escQ :
    ∀ (v tail acc : Str) (p : Option Char),
      hasBSQ v = false →
      (v ≠ [] → v.getLast? ≠ some '\\') →
      (p = some '\\' → v.head? ≠ some '"') →
      (p = some '\\' → v ≠ []) →
      scanLine (escQ v ++ '"' :: tail) true p acc =
        scanLine tail false (some '"') (acc ++ escQ v ++ ['"']) := by
  intro v
  induction v with
  | nil =>
    intro tail acc p _ _ _ h4
    have hp : p ≠ some '\\' := fun hpe => (h4 hpe) rfl
    rw [escQ]
    rw [List.nil_append, scanLine_cons, if_pos ⟨rfl, hp⟩]
    simp
  | cons a v' ih =>
    intro tail acc p h1 h2 h3 h4
    by_cases ha : a = '"'
    · subst ha
      have hp : p ≠ some '\\' := fun hpe => (h3 hpe) (by simp)
      rw [escQ, if_pos rfl]
      rw [List.cons_append, scanLine_cons, if_pos ⟨rfl, hp⟩]
      rw [List.cons_append, scanLine_cons, if_pos ⟨rfl, by simp⟩]
      rw [Bool.not_true, Bool.not_false]
      rw [ih tail (acc ++ ['"'] ++ ['"']) (some '"') (hasBSQ_tail h1)
        (fun hne => by
          rw [getLast?_cons_ne_nil hne] at h2
          exact h2 (by simp) )
        (by intro hcon; simp at hcon)
        (by intro hcon; simp at hcon)]
      simp
    · rw [escQ, if_neg ha]
      rw [List.cons_append, scanLine_cons,
        if_neg (by intro hcon; exact ha hcon.1),
        if_neg (by intro hcon; simp at hcon)]
      rw [ih tail (acc ++ [a]) (some a) (hasBSQ_tail h1)
        (fun hne => by
          rw [getLast?_cons_ne_nil hne] at h2
          exact h2 (by simp) )
        (by
          intro hcon hhd
          simp at hcon
          subst hcon
          cases v' with
          | nil => simp at hhd
          | cons b t =>
            simp at hhd
            exact (hasBSQ_head h1) hhd)
        (by
          intro hcon
          simp at hcon
          subst hcon
          intro hnil
          subst hnil
          exact h2 (by simp) (by simp))]
      simp

theorem scanLine_quoted (v tail acc : Str) (p : Option Char)
    (h1 : hasBSQ v = false) (h2 : v ≠ [] → v.getLast? ≠ some '\\')
    (hp : p ≠ some '\\') :
    scanLine (('"' :: (escQ v ++ ['"'])) ++ tail) false p acc =
      scanLine tail false (some '"') (acc ++ ('"' :: (escQ v ++ ['"']))) := by
  rw [List.cons_append, scanLine_cons, if_pos ⟨rfl, hp⟩, Bool.not_false]
  have : escQ v ++ ['"'] ++ tail = escQ v ++ '"' :: tail := by simp
  rw [this]
  rw [scanLine_escQ v tail (acc ++ ['"']) (some '"') h1 h2
    (by intro hcon; simp at hcon) (by intro hcon; simp at hcon)]
  simp

theorem goodVal_quoted_last {v : Str} (hg : goodVal v = true)
    (hq : needsQuotes v = true) : v.getLast? ≠ some '\\' := by
  simp [goodVal, hq] at hg
  exact hg.2

theorem goodVal_hasBSQ {v : Str} (hg : goodVal v = true) : hasBSQ v = false := by
  simp [goodVal] at hg
  exact hg.1

theorem not_mem_of_needsQuotes_false {v : Str} (h : needsQuotes v = false) :
    ∀ c ∈ v, c ≠ '"' ∧ c ≠ ',' := by
  rw [needsQuotes] at h
  have h1 := (Bool.or_eq_false_iff.mp h).1
  have h2 := (Bool.or_eq_false_iff.mp h).2
  have hm1 : ',' ∉ v := by simpa using h1
  have hm2 : '"' ∉ v := by simpa using h2
  intro c hc
  exact ⟨fun he => hm2 (he ▸ hc), fun he => hm1 (he ▸ hc)⟩

theorem scanLine_field_delim {v : Str} (hg : goodVal v = true)
    (ht : trimS v = v) (rest : Str) (p : Option Char) (hp : p ≠ some '\\') :
    scanLine (serField (some v) ++ ',' :: rest) false p [] =
      v :: scanLine rest false (some ',') [] := by
  rw [serField]
  by_cases hq : needsQuotes v
  · rw [if_pos hq]
    rw [scanLine_quoted v (',' :: rest) [] p (goodVal_hasBSQ hg)
      (fun _ => goodVal_quoted_last hg hq) hp]
    rw [scanLine_cons, if_neg (by intro hcon; simp at hcon), if_pos ⟨rfl, rfl⟩]
    rw [List.nil_append, finalizeTok_quoted]
  · rw [if_neg hq]
    have hw : ∀ c ∈ v, c ≠ '"' ∧ (false = false → c ≠ ',') := fun c hc =>
      ⟨(not_mem_of_needsQuotes_false (by simpa using hq) c hc).1,
       fun _ => (not_mem_of_needsQuotes_false (by simpa using hq) c hc).2⟩
    rw [scanLine_plain false v hw (',' :: rest) [] p]
    rw [scanLine_cons, if_neg (by intro hcon; simp at hcon), if_pos ⟨rfl, rfl⟩]
    rw [List.nil_append,
      finalizeTok_plain ht (fun hm => (not_mem_of_needsQuotes_false (by simpa using hq) _ hm).1 rfl)]

theorem scanLine_field_last {v : Str} (hg : goodVal v = true)
    (ht : trimS v = v) (p : Option Char) (hp : p ≠ some '\\') :
    scanLine (serField (some v)) false p [] = [v] := by
  rw [serField]
  by_cases hq : needsQuotes v
  · rw [if_pos hq]
    have : '"' :: (escQ v ++ ['"']) = ('"' :: (escQ v ++ ['"'])) ++ [] := by simp
    rw [this]
    rw [scanLine_quoted v [] [] p (goodVal_hasBSQ hg)
      (fun _ => goodVal_quoted_last hg hq) hp]
    rw [scanLine_nil, List.nil_append, finalizeTok_quoted]
  · rw [if_neg hq]
    have hw : ∀ c ∈ v, c ≠ '"' ∧ (false = false → c ≠ ',') := fun c hc =>
      ⟨(not_mem_of_needsQuotes_false (by simpa using hq) c hc).1,
       fun _ => (not_mem_of_needsQuotes_false (by simpa using hq) c hc).2⟩
    have hv : v = v ++ [] := by simp
    conv_lhs => rw [hv]
    rw [scanLine_plain false v hw [] [] p]
    rw [scanLine_nil, List.nil_append,
      finalizeTok_plain ht (fun hm => (not_mem_of_needsQuotes_false (by simpa using hq) _ hm).1 rfl)]

theorem scanLine_row :
    ∀ (vals : List Str) (p : Option Char), vals ≠ [] →
      (∀ v ∈ vals, goodVal v = true ∧ trimS v = v) →
      p ≠ some '\\' →
      scanLine (joinSep ',' (vals.map (fun v => serField (some v)))) false p [] = vals := by
  intro vals
  induction vals with
  | nil => intro p h; exact absurd rfl h
  | cons v vs ih =>
    intro p _ hcond hp
    cases vs with
    | nil =>
      show scanLine (joinSep ',' [serField (some v)]) false p [] = [v]
      rw [joinSep]
      exact scanLine_field_last (hcond v (by simp)).1 (hcond v (by simp)).2 p hp
    | cons w ws =>
      rw [List.map_cons, joinSep_cons_ne (by simp)]
      rw [scanLine_field_delim (hcond v (by simp)).1 (hcond v (by simp)).2 _ p hp]
      rw [ih (some ',') (by simp)
        (fun x hx => hcond x (List.mem_cons_of_mem _ hx))
        (by intro hcon; simp at hcon)]

end MainJS

/-!
## Object assignment and the row builder
-/

theorem setField_keys {α : Type} :
    ∀ (row : List (Str × α)) (k : Str) (v : α),
      (setField row k v).map Prod.fst = MainJS.insKey (row.map Prod.fst) k := by
  intro row
  induction row with
  | nil =>
    intro k v
    show [k] = MainJS.insKey [] k
    rw [MainJS.insKey, if_neg (List.not_mem_nil k)]
    rfl
  | cons kv r ih =>
    intro k v
    obtain ⟨k', v'⟩ := kv
    rw [setField]
    by_cases hk : k' = k
    · subst hk
      rw [if_pos rfl, List.map_cons, List.map_cons, MainJS.insKey,
        if_pos (List.mem_cons_self _ _)]
    · rw [if_neg hk, List.map_cons, List.map_cons, ih, MainJS.insKey, MainJS.insKey]
      by_cases hmem : k ∈ r.map Prod.fst
      · rw [if_pos hmem, if_pos (List.mem_cons_of_mem _ hmem)]
      · rw [if_neg hmem, if_neg (by
          intro hcon
          rcases List.mem_cons.mp hcon with h' | h'
          · exact hk h'.symm
          · exact hmem h')]
        rfl

theorem setField_getF_self {α : Type} :
    ∀ (row : List (Str × α)) (k : Str) (v : α), getF (setField row k v) k = some v := by
  intro row
  induction row with
  | nil =>
    intro k v
    show getF [(k, v)] k = some v
    rw [getF, if_pos rfl]
  | cons kv r ih =>
    intro k v
    obtain ⟨k', v'⟩ := kv
    rw [setField]
    by_cases hk : k' = k
    · rw [if_pos hk, getF, if_pos rfl]
    · rw [if_neg hk, getF, if_neg hk, ih]

theorem setField_getF_other {α : Type} :
    ∀ (row : List (Str × α)) (k q : Str) (v : α), q ≠ k →
      getF (setField row k v) q = getF row q := by
  intro row
  induction row with
  | nil =>
    intro k q v hq
    show getF [(k, v)] q = getF ([] : List (Str × α)) q
    rw [show getF [(k, v)] q = if k = q then some v else none from rfl,
      if_neg (fun h => hq h.symm)]
    rfl
  | cons kv r ih =>
    intro k q v hq
    obtain ⟨k', v'⟩ := kv
    rw [setField]
    by_cases hk : k' = k
    · subst hk
      rw [if_pos rfl, getF, getF, if_neg (fun h => hq h.symm), if_neg (fun h => hq h.symm)]
    · rw [if_neg hk, getF, getF]
      by_cases hq' : k' = q
      · rw [if_pos hq', if_pos hq']
      · rw [if_neg hq', if_neg hq', ih _ _ _ hq]

theorem setField_append {α : Type} :
    ∀ (row : List (Str × α)) (k : Str) (v : α), k ∉ row.map Prod.fst →
      setField row k v = row ++ [(k, v)] := by
  intro row
  induction row with
  | nil => intro k v _; rfl
  | cons kv r ih =>
    intro k v hk
    obtain ⟨k', v'⟩ := kv
    rw [setField, if_neg (by
      intro hcon
      exact hk (by rw [List.map_cons, hcon]; exact List.mem_cons_self _ _))]
    rw [ih k v (fun hcon =>
      hk (by rw [List.map_cons]; exact List.mem_cons_of_mem _ hcon))]
    rfl

theorem mem_setField {α : Type} :
    ∀ (row : List (Str × α)) (k : Str) (v : α) (kv : Str × α),
      kv ∈ setField row k v → kv ∈ row ∨ kv = (k, v) := by
  intro row
  induction row with
  | nil =>
    intro k v kv h
    exact Or.inr (List.mem_singleton.mp h)
  | cons kv0 r ih =>
    intro k v kv h
    obtain ⟨k', v'⟩ := kv0
    rw [setField] at h
    by_cases hk : k' = k
    · rw [if_pos hk] at h
      rcases List.mem_cons.mp h with h' | h'
      · exact Or.inr h'
      · exact Or.inl (List.mem_cons_of_mem _ h')
    · rw [if_neg hk] at h
      rcases List.mem_cons.mp h with h' | h'
      · exact Or.inl (h' ▸ List.mem_cons_self _ _)
      · rcases ih k v kv h' with h'' | h''
        · exact Or.inl (List.mem_cons_of_mem _ h'')
        · exact Or.inr h''

theorem getF_some_key_mem {α : Type} :
    ∀ (r : List (Str × α)) (k : Str) (v : α), getF r k = some v →
      k ∈ r.map Prod.fst ∧ (k, v) ∈ r := by
  intro r
  induction r with
  | nil => intro k v h; exact Option.noConfusion h
  | cons kv r' ih =>
    intro k v h
    obtain ⟨k', v'⟩ := kv
    rw [getF] at h
    by_cases hk : k' = k
    · rw [if_pos hk] at h
      injection h with h
      subst hk; subst h
      exact ⟨by rw [List.map_cons]; exact List.mem_cons_self _ _,
        List.mem_cons_self _ _⟩
    · rw [if_neg hk] at h
      have := ih k v h
      exact ⟨by rw [List.map_cons]; exact List.mem_cons_of_mem _ this.1,
        List.mem_cons_of_mem _ this.2⟩

theorem mem_foldl_insKey :
    ∀ (l : List Str) (acc : List Str) (x : Str),
      x ∈ l.foldl MainJS.insKey acc ↔ x ∈ acc ∨ x ∈ l := by
  intro l
  induction l with
  | nil => intro acc x; simp
  | cons k l' ih =>
    intro acc x
    rw [List.foldl_cons, ih]
    unfold MainJS.insKey
    by_cases hk : k ∈ acc
    · rw [if_pos hk]
      constructor
      · rintro (h | h)
        · exact Or.inl h
        · exact Or.inr (List.mem_cons_of_mem _ h)
      · rintro (h | h)
        · exact Or.inl h
        · rcases List.mem_cons.mp h with h' | h'
          · exact Or.inl (h' ▸ hk)
          · exact Or.inr h'
    · rw [if_neg hk]
      constructor
      · rintro (h | h)
        · rcases List.mem_append.mp h with h' | h'
          · exact Or.inl h'
          · simp at h'
            exact Or.inr (by simp [h'])
        · exact Or.inr (List.mem_cons_of_mem _ h)
      · rintro (h | h)
        · exact Or.inl (List.mem_append.mpr (Or.inl h))
        · rcases List.mem_cons.mp h with h' | h'
          · exact Or.inl (by simp [h'])
          · exact Or.inr h'

theorem mem_dedupKeys {l : List Str} {x : Str} :
    x ∈ MainJS.dedupKeys l ↔ x ∈ l := by
  rw [MainJS.dedupKeys, mem_foldl_insKey]
  simp

theorem nodup_foldl_insKey :
    ∀ (l : List Str) (acc : List Str), acc.Nodup → (l.foldl MainJS.insKey acc).Nodup := by
  intro l
  induction l with
  | nil => intro acc h; exact h
  | cons k l' ih =>
    intro acc h
    rw [List.foldl_cons]
    apply ih
    unfold MainJS.insKey
    by_cases hk : k ∈ acc
    · rwa [if_pos hk]
    · rw [if_neg hk]
      rw [List.nodup_append]
      exact ⟨h, List.nodup_singleton _, by simpa using hk⟩

theorem nodup_dedupKeys (l : List Str) : (MainJS.dedupKeys l).Nodup :=
  nodup_foldl_insKey l [] List.nodup_nil

namespace MainJS

theorem normV_nil : normV [] = [] := rfl

theorem normV_cons (s : Str) (vs : List Str) :
    normV (s :: vs) = if s = [] then [] else trimS s := rfl

theorem buildRowAux_keys :
    ∀ (ks vs : List Str) (row : Row) (h : Bool),
      (buildRowAux ks vs row h).1.map Prod.fst =
        (ks.map renameKey).foldl insKey (row.map Prod.fst) := by
  intro ks
  induction ks with
  | nil => intro vs row h; rfl
  | cons k ks' ih =>
    intro vs row h
    rw [buildRowAux, List.map_cons, List.foldl_cons, ih, setField_keys]

theorem buildRowAux_fresh :
    ∀ (ks vs : List Str) (row : Row) (h : Bool),
      (∀ k ∈ ks.map renameKey, k ∉ row.map Prod.fst) →
      (ks.map renameKey).Nodup →
      buildRowAux ks vs row h =
        (row ++ (ks.map renameKey).zip (normTake ks.length vs),
         h || hasIdB ks vs) := by
  intro ks
  induction ks with
  | nil =>
    intro vs row h _ _
    simp [buildRowAux, normTake, hasIdB]
  | cons k ks' ih =>
    intro vs row h hfresh hnd
    rw [buildRowAux]
    have hkey : renameKey k ∉ row.map Prod.fst :=
      hfresh _ (by rw [List.map_cons]; exact List.mem_cons_self _ _)
    rw [setField_append row _ _ hkey]
    rw [List.map_cons] at hnd
    have hnotin : renameKey k ∉ ks'.map renameKey := (List.nodup_cons.mp hnd).1
    rw [ih vs.tail (row ++ [(renameKey k, normV vs)]) _
      (by
        intro k' hk'
        rw [List.map_append]
        intro hcon
        rcases List.mem_append.mp hcon with h' | h'
        · exact hfresh k' (by rw [List.map_cons]; exact List.mem_cons_of_mem _ hk') h'
        · simp at h'
          exact hnotin (h' ▸ hk'))
      (List.nodup_cons.mp hnd).2]
    rw [List.map_cons, List.length_cons, normTake, List.zip_cons_cons, hasIdB]
    rw [List.append_assoc]
    rw [Bool.or_assoc]
    rfl

theorem normTake_len_self :
    ∀ (vs : List Str), (∀ v ∈ vs, trimS v = v) → normTake vs.length vs = vs := by
  intro vs
  induction vs with
  | nil => intro _; rfl
  | cons s vs' ih =>
    intro htr
    rw [List.length_cons, normTake]
    have hs : normV (s :: vs') = s := by
      rw [normV]
      by_cases hnil : s = []
      · rw [if_pos hnil, hnil]
      · rw [if_neg hnil]
        exact htr s (List.mem_cons_self _ _)
    rw [hs, List.tail_cons, ih (fun v hv => htr v (List.mem_cons_of_mem _ hv))]

theorem hasIdB_of_getF :
    ∀ (ks vs : List Str), ks.length = vs.length →
      (∀ k ∈ ks, renameKey k = k) →
      (∀ v ∈ vs, trimS v = v) →
      ∀ w, getF (ks.zip vs) "id".toList = some w → w ≠ [] →
      hasIdB ks vs = true := by
  intro ks
  induction ks with
  | nil => intro vs _ _ _ w hw _; exact Option.noConfusion hw
  | cons k ks' ih =>
    intro vs hlen hren htr w hw hwne
    cases vs with
    | nil => simp at hlen
    | cons v vs' =>
      rw [List.zip_cons_cons, getF] at hw
      rw [hasIdB]
      by_cases hk : k = "id".toList
      · rw [if_pos hk] at hw
        injection hw with hw
        subst hw
        have hv : normV (v :: vs') = v := by
          rw [normV_cons, if_neg hwne]
          exact htr v (List.mem_cons_self _ _)
        rw [hren k (List.mem_cons_self _ _), hv]
        simp [hk, List.isEmpty_iff, hwne]
      · rw [if_neg hk] at hw
        have := ih vs' (by simpa using hlen)
          (fun x hx => hren x (List.mem_cons_of_mem _ hx))
          (fun x hx => htr x (List.mem_cons_of_mem _ hx)) w hw hwne
        rw [List.tail_cons, this, Bool.or_true]

theorem buildRowAux_val_prop (P : Str → Prop) :
    ∀ (ks vs : List Str) (row : Row) (h : Bool),
      (∀ kv ∈ row, P kv.2) → P [] → (∀ s ∈ vs, P (trimS s)) →
      ∀ kv ∈ (buildRowAux ks vs row h).1, P kv.2 := by
  intro ks
  induction ks with
  | nil => intro vs row h hrow _ _ kv hkv; exact hrow kv hkv
  | cons k ks' ih =>
    intro vs row h hrow hnil hvs kv hkv
    rw [buildRowAux] at hkv
    refine ih vs.tail _ _ ?_ hnil (fun s hs => hvs s (List.tail_subset _ hs)) kv hkv
    intro kv' hkv'
    rcases mem_setField _ _ _ _ hkv' with h' | h'
    · exact hrow kv' h'
    · subst h'
      show P (normV vs)
      cases vs with
      | nil => exact hnil
      | cons s vs' =>
        rw [normV_cons]
        by_cases hs : s = []
        · rw [if_pos hs]; exact hnil
        · rw [if_neg hs]; exact hvs s (List.mem_cons_self _ _)

end MainJS

theorem mem_unescQ : ∀ (l : Str) {c : Char}, c ∈ unescQ l → c ∈ l
  | [], c, h => by rw [unescQ] at h; exact absurd h (List.not_mem_nil c)
  | [a], c, h => by rwa [unescQ] at h
  | a :: b :: r, c, h => by
    rw [unescQ] at h
    by_cases hab : a = '"' ∧ b = '"'
    · rw [if_pos hab] at h
      rcases List.mem_cons.mp h with h' | h'
      · rw [h', hab.1]
        exact List.mem_cons_self _ _
      · exact List.mem_cons_of_mem _ (List.mem_cons_of_mem _ (mem_unescQ r h'))
    · rw [if_neg hab] at h
      rcases List.mem_cons.mp h with h' | h'
      · exact h' ▸ List.mem_cons_self _ _
      · exact List.mem_cons_of_mem _ (mem_unescQ (b :: r) h')

theorem mem_finalizeTok {t : Str} {c : Char} (h : c ∈ MainJS.finalizeTok t) :
    c ∈ t := by
  simp only [MainJS.finalizeTok] at h
  split at h
  · exact mem_trimS (List.drop_subset _ _ (List.dropLast_subset _ (mem_unescQ _ h)))
  · exact mem_trimS h

theorem scanLine_token_chars :
    ∀ (line : Str) (inQ : Bool) (prev : Option Char) (acc : Str),
      ∀ tok ∈ MainJS.scanLine line inQ prev acc, ∀ c ∈ tok, c ∈ acc ∨ c ∈ line := by
  intro line
  induction line with
  | nil =>
    intro inQ prev acc tok htok c hc
    rw [MainJS.scanLine_nil] at htok
    rcases List.mem_singleton.mp htok with rfl
    exact Or.inl (mem_finalizeTok hc)
  | cons ch rest ih =>
    intro inQ prev acc tok htok c hc
    rw [MainJS.scanLine_cons] at htok
    split at htok
    · rcases ih _ _ _ tok htok c hc with h' | h'
      · rcases List.mem_append.mp h' with h'' | h''
        · exact Or.inl h''
        · simp at h''
          exact Or.inr (by simp [h''])
      · exact Or.inr (List.mem_cons_of_mem _ h')
    · split at htok
      · rcases List.mem_cons.mp htok with h' | h'
        · exact Or.inl (mem_finalizeTok (h' ▸ hc))
        · rcases ih _ _ _ tok h' c hc with h'' | h''
          · exact absurd h'' (List.not_mem_nil c)
          · exact Or.inr (List.mem_cons_of_mem _ h'')
      · rcases ih _ _ _ tok htok c hc with h' | h'
        · rcases List.mem_append.mp h' with h'' | h''
          · exact Or.inl h''
          · simp at h''
            exact Or.inr (by simp [h''])
        · exact Or.inr (List.mem_cons_of_mem _ h')

theorem mem_splitChAux_chars {sep : Char} :
    ∀ (s acc : Str), ∀ l ∈ splitChAux sep s acc, ∀ c ∈ l, c ∈ s ∨ c ∈ acc := by
  intro s
  induction s with
  | nil =>
    intro acc l hl c hc
    rw [splitChAux] at hl
    rcases List.mem_singleton.mp hl with rfl
    exact Or.inr (by simpa using hc)
  | cons a s' ih =>
    intro acc l hl c hc
    rw [splitChAux] at hl
    by_cases ha : a = sep
    · rw [if_pos ha] at hl
      rcases List.mem_cons.mp hl with h' | h'
      · exact Or.inr (by
          rcases List.mem_reverse.mp (h' ▸ hc) with h''
          exact h'')
      · rcases ih [] l h' c hc with h'' | h''
        · exact Or.inl (List.mem_cons_of_mem _ h'')
        · exact absurd h'' (List.not_mem_nil c)
    · rw [if_neg ha] at hl
      rcases ih (a :: acc) l hl c hc with h'' | h''
      · exact Or.inl (List.mem_cons_of_mem _ h'')
      · rcases List.mem_cons.mp h'' with h3 | h3
        · exact Or.inl (by simp [h3])
        · exact Or.inr h3

/-!
## Well-formedness of `parseCsv` output
-/

theorem parseCsv_cases {t : Str} {r : Row} (hr : r ∈ MainJS.parseCsv t) :
    ∃ hline dataLines,
      (splitNL t).filter (fun l => !(trimS l).isEmpty) = hline :: dataLines ∧
      ∃ line ∈ dataLines,
        MainJS.buildRow ((splitComma hline).map trimS)
          (MainJS.scanLine line false none []) = (r, true) := by
  rw [MainJS.parseCsv] at hr
  cases hfl : (splitNL t).filter (fun l => !(trimS l).isEmpty) with
  | nil => rw [hfl] at hr; simp at hr
  | cons hline dataLines =>
    rw [hfl] at hr
    simp only [List.mem_filterMap] at hr
    obtain ⟨line, hmem, heq⟩ := hr
    refine ⟨hline, dataLines, rfl, line, hmem, ?_⟩
    by_cases hb : (MainJS.buildRow ((splitComma hline).map trimS)
        (MainJS.scanLine line false none [])).2 = true
    · rw [if_pos hb] at heq
      injection heq with heq
      exact Prod.ext heq hb
    · rw [if_neg hb] at heq
      exact Option.noConfusion heq

theorem headKeys_eq {t hline : Str} {dataLines : List Str}
    (hfl : (splitNL t).filter (fun l => !(trimS l).isEmpty) = hline :: dataLines) :
    MainJS.headKeys t = ((splitComma hline).map trimS).map MainJS.renameKey := by
  rw [MainJS.headKeys, hfl]

theorem parseCsv_keys {t : Str} {r : Row} (hr : r ∈ MainJS.parseCsv t) :
    r.map Prod.fst = MainJS.dedupKeys (MainJS.headKeys t) := by
  obtain ⟨hline, dataLines, hfl, line, _, hb⟩ := parseCsv_cases hr
  have := congrArg Prod.fst hb
  simp only at this
  rw [← this]
  rw [MainJS.buildRow, MainJS.buildRowAux_keys]
  rw [headKeys_eq hfl]
  rfl

theorem parseCsv_vals {t : Str} {r : Row} (hr : r ∈ MainJS.parseCsv t) :
    ∀ kv ∈ r, trimS kv.2 = kv.2 ∧ '\n' ∉ kv.2 := by
  obtain ⟨hline, dataLines, hfl, line, hlmem, hb⟩ := parseCsv_cases hr
  have hline_nl : ∀ c ∈ line, c ≠ '\n' := by
    intro c hc
    have : line ∈ splitNL t :=
      List.mem_of_mem_filter (hfl ▸ List.mem_cons_of_mem _ hlmem)
    exact splitNL_no_nl this hc
  have := congrArg Prod.fst hb
  simp only at this
  rw [← this]
  apply MainJS.buildRowAux_val_prop (fun v => trimS v = v ∧ '\n' ∉ v)
  · intro kv hkv; simp at hkv
  · exact ⟨rfl, List.not_mem_nil _⟩
  · intro s hs
    refine ⟨trimS_idem s, ?_⟩
    intro hcon
    have hcs : '\n' ∈ s := mem_trimS hcon
    rcases scanLine_token_chars line false none [] s hs '\n' hcs with h' | h'
    · exact List.not_mem_nil _ h'
    · exact hline_nl '\n' h' rfl

theorem headKeys_props {t : Str} :
    ∀ k ∈ MainJS.headKeys t,
      trimS k = k ∧ (',' ∉ k) ∧ ('\n' ∉ k) ∧ k ≠ "visitorId".toList := by
  intro k hk
  rw [MainJS.headKeys] at hk
  cases hfl : (splitNL t).filter (fun l => !(trimS l).isEmpty) with
  | nil => rw [hfl] at hk; simp at hk
  | cons hline dataLines =>
    rw [hfl] at hk
    simp only [List.mem_map] at hk
    obtain ⟨p', ⟨p, hp, rfl⟩, rfl⟩ := hk
    have hpline : ∀ c ∈ p, c ∈ hline := by
      intro c hc
      rcases mem_splitChAux_chars hline [] p hp c hc with h' | h'
      · exact h'
      · exact absurd h' (List.not_mem_nil c)
    have hline_mem : hline ∈ splitNL t :=
      List.mem_of_mem_filter (hfl ▸ List.mem_cons_self _ _)
    rw [MainJS.renameKey]
    by_cases hv : trimS p = "visitorId".toList
    · rw [if_pos hv]
      refine ⟨by decide, by decide, by decide, by decide⟩
    · rw [if_neg hv]
      refine ⟨trimS_idem p, ?_, ?_, hv⟩
      · intro hcon
        exact splitChar_no_sep hp (mem_trimS hcon) rfl
      · intro hcon
        exact splitNL_no_nl hline_mem (hpline _ (mem_trimS hcon)) rfl

/-!
## Serialization-side lemmas
-/

theorem mem_joinSep {sep : Char} :
    ∀ (pieces : List Str) (c : Char), c ∈ joinSep sep pieces →
      c = sep ∨ ∃ p ∈ pieces, c ∈ p := by
  intro pieces
  induction pieces with
  | nil => intro c hc; simp [joinSep] at hc
  | cons x xs ih =>
    intro c hc
    cases xs with
    | nil =>
      rw [joinSep] at hc
      exact Or.inr ⟨x, List.mem_cons_self _ _, hc⟩
    | cons y ys =>
      rw [joinSep_cons_ne (by simp)] at hc
      rcases List.mem_append.mp hc with h' | h'
      · exact Or.inr ⟨x, List.mem_cons_self _ _, h'⟩
      · rcases List.mem_cons.mp h' with h'' | h''
        · exact Or.inl h''
        · rcases ih c h'' with h3 | ⟨p, hp, hcp⟩
          · exact Or.inl h3
          · exact Or.inr ⟨p, List.mem_cons_of_mem _ hp, hcp⟩

theorem mem_joinSep_of {sep : Char} :
    ∀ (pieces : List Str) (p : Str) (c : Char), p ∈ pieces → c ∈ p →
      c ∈ joinSep sep pieces := by
  intro pieces
  induction pieces with
  | nil => intro p c hp; simp at hp
  | cons x xs ih =>
    intro p c hp hc
    cases xs with
    | nil =>
      rw [joinSep]
      rcases List.mem_cons.mp hp with h' | h'
      · exact h' ▸ hc
      · simp at h'
    | cons y ys =>
      rw [joinSep_cons_ne (by simp)]
      rcases List.mem_cons.mp hp with h' | h'
      · exact List.mem_append.mpr (Or.inl (h' ▸ hc))
      · exact List.mem_append.mpr
          (Or.inr (List.mem_cons_of_mem _ (ih p c h' hc)))

theorem joinSep_getLast_not_cr {sep : Char} (hsep : sep ≠ '\r') :
    ∀ (pieces : List Str), (∀ p ∈ pieces, p.getLast? ≠ some '\r') →
      (joinSep sep pieces).getLast? ≠ some '\r' := by
  intro pieces
  induction pieces with
  | nil => intro _; simp [joinSep]
  | cons x xs ih =>
    intro hp
    cases xs with
    | nil =>
      rw [joinSep]
      exact hp x (List.mem_cons_self _ _)
    | cons y ys =>
      rw [joinSep_cons_ne (by simp), List.getLast?_append]
      cases hj : joinSep sep (y :: ys) with
      | nil =>
        intro hcon
        simp at hcon
        exact hsep hcon
      | cons a rest =>
        rw [getLast?_cons_ne_nil (by simp), ← hj]
        have hne := ih (fun p hpm => hp p (List.mem_cons_of_mem _ hpm))
        cases hg : (joinSep sep (y :: ys)).getLast? with
        | none =>
          rw [List.getLast?_eq_none_iff] at hg
          rw [hg] at hj
          exact List.noConfusion hj
        | some b =>
          rw [hg] at hne
          rw [show (some b).or (List.getLast? x) = some b from rfl]
          exact hne

theorem mem_serField {o : Option Str} {c : Char} (h : c ∈ MainJS.serField o) :
    c = '"' ∨ ∃ v, o = some v ∧ c ∈ v := by
  cases o with
  | none => simp [MainJS.serField] at h
  | some v =>
    rw [MainJS.serField] at h
    by_cases hq : MainJS.needsQuotes v
    · rw [if_pos hq] at h
      rcases List.mem_cons.mp h with h' | h'
      · exact Or.inl h'
      · rcases List.mem_append.mp h' with h'' | h''
        · rcases mem_escQ h'' with h3 | h3
          · exact Or.inr ⟨v, rfl, h3⟩
          · exact Or.inl h3
        · simp at h''
          exact Or.inl h''
    · rw [if_neg hq] at h
      exact Or.inr ⟨v, rfl, h⟩

theorem mem_serField_of {v : Str} {c : Char} (h : c ∈ v) :
    c ∈ MainJS.serField (some v) := by
  rw [MainJS.serField]
  by_cases hq : MainJS.needsQuotes v
  · rw [if_pos hq]
    exact List.mem_cons_of_mem _ (List.mem_append.mpr (Or.inl (mem_escQ_of h)))
  · rw [if_neg hq]
    exact h

theorem serField_getLast_not_cr {o : Option Str}
    (htr : ∀ v, o = some v → trimS v = v) :
    (MainJS.serField o).getLast? ≠ some '\r' := by
  cases o with
  | none => simp [MainJS.serField]
  | some v =>
    rw [MainJS.serField]
    by_cases hq : MainJS.needsQuotes v
    · rw [if_pos hq]
      rw [getLast?_cons_ne_nil (by simp), List.getLast?_concat]
      simp
    · rw [if_neg hq]
      intro hcon
      have := trimmed_last_not_ws (htr v rfl) hcon
      simp [isWSC] at this

theorem map_getF_comp {β : Type} (g : Option Str → β) :
    ∀ (r : Row), (r.map Prod.fst).Nodup →
      (r.map Prod.fst).map (fun k => g (getF r k)) =
        (r.map Prod.snd).map (fun v => g (some v)) := by
  intro r
  induction r with
  | nil => intro _; rfl
  | cons kv r' ih =>
    intro hnd
    obtain ⟨k, v⟩ := kv
    rw [List.map_cons, List.map_cons, List.map_cons, List.map_cons]
    congr 1
    · show g (getF ((k, v) :: r') k) = g (some v)
      rw [getF, if_pos rfl]
    · rw [List.map_cons] at hnd
      have hk : k ∉ r'.map Prod.fst := (List.nodup_cons.mp hnd).1
      rw [← ih (List.nodup_cons.mp hnd).2]
      apply List.map_congr_left
      intro q hq
      have : getF ((k, v) :: r') q = getF r' q := by
        rw [getF, if_neg (fun hcon => hk (by rw [hcon]; exact hq))]
      rw [this]

theorem filterMap_map_self {α β : Type} (f : β → Option α) (g : α → β) :
    ∀ (l : List α), (∀ x ∈ l, f (g x) = some x) →
      List.filterMap f (l.map g) = l := by
  intro l
  induction l with
  | nil => intro _; rfl
  | cons x xs ih =>
    intro hf
    rw [List.map_cons, List.filterMap_cons, hf x (List.mem_cons_self _ _)]
    rw [ih (fun y hy => hf y (List.mem_cons_of_mem _ hy))]

theorem renameKey_eq_self {k : Str} (h : k ≠ "visitorId".toList) :
    MainJS.renameKey k = k := by
  rw [MainJS.renameKey, if_neg h]

theorem parseCsv_eval {s hline : Str} {dls : List Str}
    (hfl : (splitNL s).filter (fun l => !(trimS l).isEmpty) = hline :: dls) :
    MainJS.parseCsv s = dls.filterMap (fun line =>
      if (MainJS.buildRow ((splitComma hline).map trimS)
            (MainJS.scanLine line false none [])).2 then
        some (MainJS.buildRow ((splitComma hline).map trimS)
            (MainJS.scanLine line false none [])).1
      else none) := by
  rw [MainJS.parseCsv, hfl]

/-!
## The round-trip theorem over well-formed record lists
-/

theorem parse_stringify_of_wf (K : List Str) :
    ∀ (R : List Row), R ≠ [] →
    (∀ r ∈ R, r.map Prod.fst = K) →
    K.Nodup →
    (∀ k ∈ K, trimS k = k ∧ (',' ∉ k) ∧ ('\n' ∉ k) ∧ k ≠ "visitorId".toList) →
    "id".toList ∈ K →
    (∀ r ∈ R, ∀ kv ∈ r, trimS kv.2 = kv.2 ∧ '\n' ∉ kv.2 ∧ MainJS.goodVal kv.2 = true) →
    (∀ r ∈ R, ∃ w, getF r "id".toList = some w ∧ w ≠ []) →
    MainJS.parseCsv (MainJS.stringifyCsv R) = R := by
  intro R hne hkeys hnd hK hid hval hidv
  obtain ⟨r0, R', rfl⟩ : ∃ r0 R', R = r0 :: R' := by
    cases R with
    | nil => exact absurd rfl hne
    | cons a b => exact ⟨a, b, rfl⟩
  have hser : MainJS.stringifyCsv (r0 :: R') =
      joinSep '\n' (joinSep ',' K ::
        (r0 :: R').map (fun r =>
          joinSep ',' (K.map (fun h => MainJS.serField (getF r h))))) := by
    rw [MainJS.stringifyCsv, hkeys r0 (List.mem_cons_self _ _)]
  -- per-row facts
  have hrowfact : ∀ r ∈ r0 :: R',
      MainJS.scanLine (joinSep ',' (K.map (fun h => MainJS.serField (getF r h))))
          false none [] = r.map Prod.snd ∧
      MainJS.buildRow K (r.map Prod.snd) = (r, true) ∧
      (∀ c ∈ joinSep ',' (K.map (fun h => MainJS.serField (getF r h))), c ≠ '\n') ∧
      (joinSep ',' (K.map (fun h => MainJS.serField (getF r h)))).getLast? ≠ some '\r' ∧
      (trimS (joinSep ',' (K.map (fun h => MainJS.serField (getF r h))))).isEmpty = false := by
    intro r hr
    have hkr : r.map Prod.fst = K := hkeys r hr
    have hndr : (r.map Prod.fst).Nodup := by rw [hkr]; exact hnd
    have hpieces : K.map (fun h => MainJS.serField (getF r h)) =
        (r.map Prod.snd).map (fun v => MainJS.serField (some v)) := by
      rw [← hkr]
      exact map_getF_comp MainJS.serField r hndr
    have hvals : ∀ v ∈ r.map Prod.snd, MainJS.goodVal v = true ∧ trimS v = v ∧ '\n' ∉ v := by
      intro v hv
      obtain ⟨kv, hkv, hveq⟩ := List.mem_map.mp hv
      subst hveq
      exact ⟨(hval r hr kv hkv).2.2, (hval r hr kv hkv).1, (hval r hr kv hkv).2.1⟩
    have hrne : r ≠ [] := by
      intro hnil
      rw [hnil] at hkr
      rw [← hkr] at hid
      exact List.not_mem_nil _ hid
    have hsnd_ne : r.map Prod.snd ≠ [] := by simpa using hrne
    obtain ⟨w, hw, hwne⟩ := hidv r hr
    have hwmem : ("id".toList, w) ∈ r := (getF_some_key_mem r _ w hw).2
    have hwtr : trimS w = w := (hval r hr _ hwmem).1
    have hscan : MainJS.scanLine
        (joinSep ',' (K.map (fun h => MainJS.serField (getF r h)))) false none [] =
        r.map Prod.snd := by
      rw [hpieces]
      exact MainJS.scanLine_row (r.map Prod.snd) none hsnd_ne
        (fun v hv => ⟨(hvals v hv).1, (hvals v hv).2.1⟩) (by simp)
    have hren : K.map MainJS.renameKey = K := by
      have h1 : K.map MainJS.renameKey = K.map id :=
        List.map_congr_left (fun k hk => renameKey_eq_self (hK k hk).2.2.2)
      rw [h1, List.map_id]
    have hlen : K.length = (r.map Prod.snd).length := by
      rw [← hkr]
      simp
    have hzip : K.zip (r.map Prod.snd) = r := by
      rw [← hkr]
      exact Eq.symm (List.zip_of_prod rfl rfl)
    have hbuild : MainJS.buildRow K (r.map Prod.snd) = (r, true) := by
      rw [MainJS.buildRow]
      rw [MainJS.buildRowAux_fresh K (r.map Prod.snd) [] false
        (by intro k _ hcon; exact List.not_mem_nil k hcon)
        (by rw [hren]; exact hnd)]
      rw [hren, hlen, MainJS.normTake_len_self _ (fun v hv => (hvals v hv).2.1)]
      have hhasid : MainJS.hasIdB K (r.map Prod.snd) = true := by
        apply MainJS.hasIdB_of_getF K _ hlen
          (fun k hk => renameKey_eq_self (hK k hk).2.2.2)
          (fun v hv => (hvals v hv).2.1) w _ hwne
        rw [hzip]
        exact hw
      rw [hzip, hhasid]
      simp
    refine ⟨hscan, hbuild, ?_, ?_, ?_⟩
    · intro c hc
      rcases mem_joinSep _ c hc with h' | ⟨p, hp, hcp⟩
      · rw [h']; decide
      · obtain ⟨h0, _, hpeq⟩ := List.mem_map.mp hp
        subst hpeq
        rcases mem_serField hcp with h'' | ⟨v, hov, hcv⟩
        · rw [h'']; decide
        · have hnem := (hval r hr _ (getF_some_key_mem r _ _ hov).2).2.1
          intro hcon
          rw [hcon] at hcv
          exact hnem hcv
    · apply joinSep_getLast_not_cr (by decide)
      intro p hp
      obtain ⟨h0, _, hpeq⟩ := List.mem_map.mp hp
      subst hpeq
      apply serField_getLast_not_cr
      intro v hov
      exact (hval r hr _ (getF_some_key_mem r _ _ hov).2).1
    · cases w with
      | nil => exact absurd rfl hwne
      | cons c w' =>
        have hcnws : isWSC c = false := trimmed_head_not_ws hwtr rfl
        have hcmem : c ∈ joinSep ',' (K.map (fun h => MainJS.serField (getF r h))) := by
          apply mem_joinSep_of _ (MainJS.serField (getF r "id".toList)) c
            (List.mem_map.mpr ⟨"id".toList, hid, rfl⟩)
          rw [hw]
          exact mem_serField_of (List.mem_cons_self _ _)
        have hne2 := trimS_ne_nil_of_mem hcmem hcnws
        cases hie : (trimS (joinSep ','
            (K.map (fun h => MainJS.serField (getF r h))))).isEmpty
        · rfl
        · exact absurd (List.isEmpty_iff.mp hie) hne2
  -- the serialized text splits back into its lines
  have hsplit : splitNL (MainJS.stringifyCsv (r0 :: R')) =
      joinSep ',' K ::
        (r0 :: R').map (fun r =>
          joinSep ',' (K.map (fun h => MainJS.serField (getF r h)))) := by
    rw [hser]
    apply splitNL_joinSep _ (by simp)
    intro l hl
    rcases List.mem_cons.mp hl with h' | h'
    · subst h'
      constructor
      · intro c hc
        rcases mem_joinSep _ c hc with h'' | ⟨p, hp, hcp⟩
        · rw [h'']; decide
        · exact fun hcon => (hK p hp).2.2.1 (hcon ▸ hcp)
      · apply joinSep_getLast_not_cr (by decide)
        intro p hp hcon
        have := trimmed_last_not_ws (hK p hp).1 hcon
        simp [isWSC] at this
    · obtain ⟨r, hrm, hleq⟩ := List.mem_map.mp h'
      subst hleq
      exact ⟨(hrowfact r hrm).2.2.1, (hrowfact r hrm).2.2.2.1⟩
  -- every line survives the empty-line filter
  have hfilter : (splitNL (MainJS.stringifyCsv (r0 :: R'))).filter
      (fun l => !(trimS l).isEmpty) =
      joinSep ',' K ::
        (r0 :: R').map (fun r =>
          joinSep ',' (K.map (fun h => MainJS.serField (getF r h)))) := by
    rw [hsplit]
    apply List.filter_eq_self.mpr
    intro l hl
    rcases List.mem_cons.mp hl with h' | h'
    · subst h'
      have hi : 'i' ∈ joinSep ',' K :=
        mem_joinSep_of _ "id".toList 'i' hid (by decide)
      have := trimS_ne_nil_of_mem hi (by decide)
      simpa [List.isEmpty_iff] using this
    · obtain ⟨r, hrm, hleq⟩ := List.mem_map.mp h'
      subst hleq
      rw [(hrowfact r hrm).2.2.2.2]
      rfl
  -- the header row parses back to the key list
  have hheaders : (splitComma (joinSep ',' K)).map trimS = K := by
    have h1 : splitComma (joinSep ',' K) = K := by
      rw [splitComma]
      apply splitChar_joinSep K (List.ne_nil_of_mem hid)
      intro p hp c hc hcon
      exact (hK p hp).2.1 (hcon ▸ hc)
    rw [h1]
    have h2 : K.map trimS = K.map id :=
      List.map_congr_left (fun k hk => (hK k hk).1)
    rw [h2, List.map_id]
  rw [parseCsv_eval hfilter]
  rw [hheaders]
  apply filterMap_map_self
  intro r hr
  rw [(hrowfact r hr).1, (hrowfact r hr).2.1]
  simp

/-!
## The `hasId` latch and the resolved id
-/

theorem buildRowAux_id_count_zero :
    ∀ (ks vs : List Str) (row : Row) (h : Bool),
      (ks.map MainJS.renameKey).count "id".toList = 0 →
      getF (MainJS.buildRowAux ks vs row h).1 "id".toList = getF row "id".toList ∧
        (MainJS.buildRowAux ks vs row h).2 = h := by
  intro ks
  induction ks with
  | nil => intro vs row h _; exact ⟨rfl, rfl⟩
  | cons k ks' ih =>
    intro vs row h hcount
    rw [List.map_cons, List.count_cons] at hcount
    have hk : MainJS.renameKey k ≠ "id".toList := by
      intro hcon
      rw [beq_iff_eq.mpr hcon, if_pos rfl] at hcount
      omega
    have hrest : (ks'.map MainJS.renameKey).count "id".toList = 0 := by
      omega
    rw [MainJS.buildRowAux]
    have := ih vs.tail (setField row (MainJS.renameKey k) (MainJS.normV vs))
      (h || (decide (MainJS.renameKey k = "id".toList) && !(MainJS.normV vs).isEmpty))
      hrest
    refine ⟨?_, ?_⟩
    · rw [this.1, setField_getF_other _ _ _ _ (fun hcon => hk hcon.symm)]
    · rw [this.2, decide_eq_false hk]
      simp

theorem buildRowAux_id_unique :
    ∀ (ks vs : List Str) (row : Row),
      (ks.map MainJS.renameKey).count "id".toList ≤ 1 →
      (MainJS.buildRowAux ks vs row false).2 = true →
      ∃ w, getF (MainJS.buildRowAux ks vs row false).1 "id".toList = some w ∧
        w ≠ [] := by
  intro ks
  induction ks with
  | nil =>
    intro vs row _ hcon
    exact absurd hcon (by simp [MainJS.buildRowAux])
  | cons k ks' ih =>
    intro vs row hcount htrue
    rw [List.map_cons, List.count_cons] at hcount
    by_cases hk : MainJS.renameKey k = "id".toList
    · have hrest : (ks'.map MainJS.renameKey).count "id".toList = 0 := by
        rw [beq_iff_eq.mpr hk, if_pos rfl] at hcount
        omega
      rw [MainJS.buildRowAux] at htrue ⊢
      have hcz := buildRowAux_id_count_zero ks' vs.tail
        (setField row (MainJS.renameKey k) (MainJS.normV vs))
        (false || (decide (MainJS.renameKey k = "id".toList) && !(MainJS.normV vs).isEmpty))
        hrest
      rw [hcz.2, decide_eq_true hk] at htrue
      simp only [Bool.false_or, Bool.true_and, Bool.not_eq_true'] at htrue
      refine ⟨MainJS.normV vs, ?_, by simpa [List.isEmpty_iff] using htrue⟩
      rw [hcz.1, hk, setField_getF_self]
    · have hrest : (ks'.map MainJS.renameKey).count "id".toList ≤ 1 := by
        rw [beq_eq_false_iff_ne.mpr hk] at hcount
        rw [if_neg (show ¬(false = true) by simp)] at hcount
        omega
      rw [MainJS.buildRowAux] at htrue ⊢
      have hb : (false || (decide (MainJS.renameKey k = "id".toList) &&
          !(MainJS.normV vs).isEmpty)) = false := by
        rw [decide_eq_false hk]
        simp
      rw [hb] at htrue ⊢
      exact ih vs.tail _ hrest htrue

/-!
## Claims C1, C3, C4 — the quote-aware codec
-/

/-- C1 (counterexample): the round-trip contract fails as stated.  The
CSV text `id\n"a\",b"` parses (under the backslash-aware quote scanner)
to the single record `{id: 'a\",b'}`; stringifying and re-parsing yields
`{id: 'a\"'}` instead, because `stringifyCsv` escapes quotes by
doubling while the scanner treats a backslash-preceded quote as inert,
so the comma inside the value is taken as a delimiter on re-parse. -/
theorem c1_roundtrip_counterexample :
    MainJS.parseCsv (MainJS.stringifyCsv
        (MainJS.parseCsv "id\n\"a\\\",b\"".toList)) ≠
      MainJS.parseCsv "id\n\"a\\\",b\"".toList := by
  decide

/-- C1 (amended): for every record sequence produced by `parseCsv`, if
no field value contains a backslash immediately before a double quote
(nor a quoted value ending in a backslash), and every record's resolved
id is non-empty, then parsing the result of `stringifyCsv` yields a
record sequence field-for-field equal to the original. -/
theorem c1_parse_stringify_roundtrip (t : Str)
    (hgood : MainJS.goodRecs (MainJS.parseCsv t) = true)
    (hids : MainJS.idsOk (MainJS.parseCsv t) = true) :
    MainJS.parseCsv (MainJS.stringifyCsv (MainJS.parseCsv t)) =
      MainJS.parseCsv t := by
  have hidv : ∀ r ∈ MainJS.parseCsv t,
      ∃ w, getF r "id".toList = some w ∧ w ≠ [] := by
    intro r hr
    rw [MainJS.idsOk] at hids
    have h1 := (List.all_eq_true.mp hids) r hr
    cases hg : getF r "id".toList with
    | none => rw [hg] at h1; simp at h1
    | some w =>
      rw [hg] at h1
      refine ⟨w, rfl, ?_⟩
      simp only [Bool.not_eq_true'] at h1
      simpa [List.isEmpty_iff] using h1
  by_cases hnil : MainJS.parseCsv t = []
  · rw [hnil]
    decide
  · refine parse_stringify_of_wf (MainJS.dedupKeys (MainJS.headKeys t))
      (MainJS.parseCsv t) hnil ?_ (nodup_dedupKeys _) ?_ ?_ ?_ hidv
    · intro r hr
      exact parseCsv_keys hr
    · intro k hk
      exact headKeys_props k (mem_dedupKeys.mp hk)
    · obtain ⟨r, hr⟩ := List.exists_mem_of_ne_nil _ hnil
      obtain ⟨w, hw, _⟩ := hidv r hr
      have hmem := (getF_some_key_mem r _ w hw).1
      rw [parseCsv_keys hr] at hmem
      exact hmem
    · intro r hr kv hkv
      refine ⟨(parseCsv_vals hr kv hkv).1, (parseCsv_vals hr kv hkv).2, ?_⟩
      rw [MainJS.goodRecs] at hgood
      have h1 := (List.all_eq_true.mp hgood) r hr
      exact (List.all_eq_true.mp h1) kv hkv

/-- Witness for the amended C1 theorem: a parseable CSV text with a
quoted, comma-carrying field whose round trip the theorem certifies. -/
theorem c1_parse_stringify_roundtrip_witness :
    MainJS.goodRecs
        (MainJS.parseCsv "visitorId,notes\nv1,\"Doe, \"\"Jane\"\"\"".toList) = true ∧
    MainJS.idsOk
        (MainJS.parseCsv "visitorId,notes\nv1,\"Doe, \"\"Jane\"\"\"".toList) = true ∧
    MainJS.parseCsv (MainJS.stringifyCsv
        (MainJS.parseCsv "visitorId,notes\nv1,\"Doe, \"\"Jane\"\"\"".toList)) =
      MainJS.parseCsv "visitorId,notes\nv1,\"Doe, \"\"Jane\"\"\"".toList :=
  ⟨by decide, by decide,
    c1_parse_stringify_roundtrip _ (by decide) (by decide)⟩

/-- C3 (counterexample): a row whose resolved `id` field is empty can
appear in the output.  With header `visitorId,id` and data row `x,`,
the first column latches `hasId` with the value `x`, and the second
column then overwrites the `id` property with the empty string; the
row is kept with a final `id` of `""`. -/
theorem c3_empty_id_counterexample :
    MainJS.parseCsv "visitorId,id\nx,".toList = [[("id".toList, [])]] ∧
    (MainJS.parseCsv "visitorId,id\nx,".toList).any
      (fun r => getF r "id".toList == some []) = true := by
  decide

/-- C3 (amended): whenever the header maps at most one column to `id`
(no duplicate `id`/`visitorId` columns), every row kept by `parseCsv`
has a non-empty resolved `id`; rows with an empty resolved id are
absent from the output. -/
theorem c3_empty_id_rejected (t : Str)
    (hone : (MainJS.headKeys t).count "id".toList ≤ 1) :
    ∀ r ∈ MainJS.parseCsv t, ∀ w, getF r "id".toList = some w → w ≠ [] := by
  intro r hr w hw
  obtain ⟨hline, dataLines, hfl, line, hlmem, hb⟩ := parseCsv_cases hr
  have hhead : ((splitComma hline).map trimS).map MainJS.renameKey =
      MainJS.headKeys t := (headKeys_eq hfl).symm
  have h1 := congrArg Prod.fst hb
  have h2 := congrArg Prod.snd hb
  simp only at h1 h2
  rw [MainJS.buildRow] at h1 h2
  obtain ⟨w', hw', hw'ne⟩ := buildRowAux_id_unique ((splitComma hline).map trimS)
    (MainJS.scanLine line false none []) []
    (by rw [hhead]; exact hone) h2
  rw [h1] at hw'
  rw [hw] at hw'
  injection hw' with hw'
  rw [hw']
  exact hw'ne

/-- Witness for the amended C3 theorem: a two-row file with a blank-id
row; the theorem certifies every kept row has a non-empty id. -/
theorem c3_empty_id_rejected_witness :
    ((MainJS.headKeys "id,firstName\nv1,Jane\n,NoId".toList).count
        "id".toList ≤ 1) ∧
    (∀ r ∈ MainJS.parseCsv "id,firstName\nv1,Jane\n,NoId".toList,
      ∀ w, getF r "id".toList = some w → w ≠ []) :=
  ⟨by decide, c3_empty_id_rejected _ (by decide)⟩

/-- C4 (counterexample): parsing `h1,h2,h3\n1,"x""y",2` yields no
record at all — the header has no `id`/`visitorId` column, so the row
fails the `hasId` gate — rather than the record claimed. -/
theorem c4_quoting_counterexample :
    MainJS.parseCsv "h1,h2,h3\n1,\"x\"\"y\",2".toList = [] ∧
    MainJS.parseCsv "h1,h2,h3\n1,\"x\"\"y\",2".toList ≠
      [[("h1".toList, "1".toList), ("h2".toList, "x\"y".toList),
        ("h3".toList, "2".toList)]] := by
  decide

/-- C4 (amended): with an id-resolving first column (`id,h2,h3`), the
data line `1,"x""y",2` parses exactly as the claim's quoting mechanics
describe: the quoted comma is not a delimiter, surrounding quotes are
stripped, and the doubled quote is unescaped, giving
`{id:"1", h2:'x"y', h3:"2"}`. -/
theorem c4_quoting_amended :
    MainJS.parseCsv "id,h2,h3\n1,\"x\"\"y\",2".toList =
      [[("id".toList, "1".toList), ("h2".toList, "x\"y".toList),
        ("h3".toList, "2".toList)]] := by
  decide

/-!
## The import loop: bridge to the fixed-id step
-/

namespace ScriptJS

theorem updRec_id (rec : Rec) (r : RowS) (b : Nat) : (updRec rec r b).id = rec.id := rfl

theorem updRec_generalNotes (rec : Rec) (r : RowS) (b : Nat) :
    (updRec rec r b).generalNotes = rec.generalNotes := rfl

theorem updRec_updRec (rec : Rec) (r r' : RowS) (b b' : Nat) :
    updRec (updRec rec r b) r' b' = updRec rec r' b' := rfl

theorem updRec_mkRec (vid : Str) (r : RowS) (b : Nat) :
    updRec (mkRec vid r b) r b = mkRec vid r b := rfl

theorem mkRec_id (vid : Str) (r : RowS) (b : Nat) : (mkRec vid r b).id = vid := rfl

theorem importStep_eq (gen : Nat → Str) (sn : List Rec × Nat) (r : RowS) :
    importStep gen sn r =
      if !acceptRow r then sn
      else if ∃ rec ∈ sn.1, rec.id = (resolveId gen sn.2 r).1 then
        (sn.1.map (fun rec =>
          if rec.id = (resolveId gen sn.2 r).1 then
            updRec rec r (isBannedVal r) else rec),
         (resolveId gen sn.2 r).2)
      else
        (sn.1 ++ [mkRec (resolveId gen sn.2 r).1 r (isBannedVal r)],
         (resolveId gen sn.2 r).2) := rfl

theorem importStep_skip {gen : Nat → Str} {sn : List Rec × Nat} {r : RowS}
    (h : acceptRow r = false) : importStep gen sn r = sn := by
  rw [importStep_eq, if_pos (by rw [h]; rfl)]

theorem stepFixed_skip {S : List Rec} {r : RowS} (h : acceptRow r = false) :
    stepFixed S r = S := by
  rw [stepFixed, if_pos (by rw [h]; rfl)]

theorem resolveId_supplied {gen : Nat → Str} {n : Nat} {r : RowS}
    (h : truthy (fld r "id".toList) = true) :
    resolveId gen n r = (suppliedId r, n) := by
  cases hg : fld r "id".toList with
  | none => rw [hg] at h; exact Bool.noConfusion h
  | some v =>
    rw [hg] at h
    rw [truthy] at h
    have hv : v.isEmpty = false := by
      cases hie : v.isEmpty
      · rfl
      · rw [hie] at h; exact Bool.noConfusion h
    rw [resolveId, hg]
    show (if v.isEmpty = true then (gen n, n + 1) else (v, n)) = (suppliedId r, n)
    rw [if_neg (by simp [hv]), suppliedId, hg]
    rfl

theorem importStep_fixed {gen : Nat → Str} {sn : List Rec × Nat} {r : RowS}
    (hid : acceptRow r = true → truthy (fld r "id".toList) = true) :
    importStep gen sn r = (stepFixed sn.1 r, sn.2) := by
  cases ha : acceptRow r with
  | false => rw [importStep_skip ha, stepFixed_skip ha]
  | true =>
    rw [importStep_eq, if_neg (show ¬((!acceptRow r) = true) by rw [ha]; simp)]
    rw [stepFixed, if_neg (show ¬((!acceptRow r) = true) by rw [ha]; simp)]
    rw [resolveId_supplied (hid ha)]
    show (if ∃ rec ∈ sn.1, rec.id = suppliedId r then
        (List.map (fun rec =>
          if rec.id = suppliedId r then updRec rec r (isBannedVal r) else rec) sn.1,
         sn.2)
      else (sn.1 ++ [mkRec (suppliedId r) r (isBannedVal r)], sn.2)) = _
    by_cases hex : ∃ rec ∈ sn.1, rec.id = suppliedId r
    · rw [if_pos hex, if_pos hex]
    · rw [if_neg hex, if_neg hex]

theorem runImport_fixed (gen : Nat → Str) :
    ∀ (rows : List RowS) (S : List Rec) (n : Nat),
      (∀ r ∈ rows, acceptRow r = true → truthy (fld r "id".toList) = true) →
      runImport gen S n rows = (rows.foldl stepFixed S, n) := by
  intro rows
  induction rows with
  | nil => intro S n _; rfl
  | cons r rs ih =>
    intro S n hid
    show List.foldl (importStep gen) (importStep gen (S, n) r) rs =
      ((r :: rs).foldl stepFixed S, n)
    rw [importStep_fixed (hid r (List.mem_cons_self _ _))]
    rw [List.foldl_cons]
    exact ih (stepFixed S r) n (fun x hx => hid x (List.mem_cons_of_mem _ hx))

theorem phiRow_id (r : RowS) (rec : Rec) : (phiRow r rec).id = rec.id := by
  rw [phiRow]
  split
  · rfl
  · rfl

theorem map_id_map_phi (r : RowS) (S : List Rec) :
    (S.map (phiRow r)).map Rec.id = S.map Rec.id := by
  rw [List.map_map]
  exact List.map_congr_left (fun rec _ => phiRow_id r rec)

theorem ids_stepFixed_mono {S : List Rec} {r : RowS} {x : Str}
    (h : x ∈ S.map Rec.id) : x ∈ (stepFixed S r).map Rec.id := by
  rw [stepFixed]
  split
  · exact h
  · split
    · obtain ⟨rec, hrec, hrid⟩ := List.mem_map.mp h
      apply List.mem_map.mpr
      by_cases hcase : rec.id = suppliedId r
      · exact ⟨updRec rec r (isBannedVal r),
          List.mem_map.mpr ⟨rec, hrec, by rw [if_pos hcase]⟩, by rw [updRec_id, hcase, ← hrid, hcase]⟩
      · exact ⟨rec, List.mem_map.mpr ⟨rec, hrec, by rw [if_neg hcase]⟩, hrid⟩
    · rw [List.map_append]
      exact List.mem_append.mpr (Or.inl h)

theorem ids_stepFixed_adds {S : List Rec} {r : RowS} (h : acceptRow r = true) :
    suppliedId r ∈ (stepFixed S r).map Rec.id := by
  rw [stepFixed, if_neg (by rw [h]; simp)]
  split
  · next hex =>
    obtain ⟨rec, hrec, hrid⟩ := hex
    apply List.mem_map.mpr
    exact ⟨updRec rec r (isBannedVal r),
      List.mem_map.mpr ⟨rec, hrec, by rw [if_pos hrid]⟩, by rw [updRec_id, hrid]⟩
  · rw [List.map_append]
    exact List.mem_append.mpr (Or.inr (by simp [mkRec_id]))

theorem ids_foldl_mono :
    ∀ (rows : List RowS) (S : List Rec) (x : Str),
      x ∈ S.map Rec.id → x ∈ (rows.foldl stepFixed S).map Rec.id := by
  intro rows
  induction rows with
  | nil => intro S x h; exact h
  | cons r rs ih =>
    intro S x h
    rw [List.foldl_cons]
    exact ih _ x (ids_stepFixed_mono h)

theorem ids_cover :
    ∀ (rows : List RowS) (S : List Rec) (r : RowS), r ∈ rows →
      acceptRow r = true →
      suppliedId r ∈ (rows.foldl stepFixed S).map Rec.id := by
  intro rows
  induction rows with
  | nil => intro S r h; exact absurd h (List.not_mem_nil r)
  | cons r0 rs ih =>
    intro S r hmem hacc
    rw [List.foldl_cons]
    rcases List.mem_cons.mp hmem with h' | h'
    · subst h'
      exact ids_foldl_mono rs _ _ (ids_stepFixed_adds hacc)
    · exact ih _ r h' hacc

theorem stepFixed_eq_map {S : List Rec} {r : RowS}
    (h : acceptRow r = true → suppliedId r ∈ S.map Rec.id) :
    stepFixed S r = S.map (phiRow r) := by
  cases ha : acceptRow r with
  | false =>
    rw [stepFixed_skip ha]
    have : S.map (phiRow r) = S.map id :=
      List.map_congr_left (fun rec _ => by
        rw [phiRow, if_neg (fun hcon => by rw [ha] at hcon; exact Bool.noConfusion hcon.1)]
        rfl)
    rw [this, List.map_id]
  | true =>
    rw [stepFixed, if_neg (by rw [ha]; simp)]
    have hex : ∃ rec ∈ S, rec.id = suppliedId r := by
      obtain ⟨rec, hrec, hrid⟩ := List.mem_map.mp (h ha)
      exact ⟨rec, hrec, hrid⟩
    rw [if_pos hex]
    apply List.map_congr_left
    intro rec _
    rw [phiRow]
    by_cases hcase : rec.id = suppliedId r
    · rw [if_pos hcase, if_pos ⟨ha, hcase⟩]
    · rw [if_neg hcase, if_neg (fun hcon => hcase hcon.2)]

theorem foldl_map_fusion :
    ∀ (rows : List RowS) (S : List Rec),
      (∀ r ∈ rows, acceptRow r = true → suppliedId r ∈ S.map Rec.id) →
      rows.foldl stepFixed S = S.map (chainRows rows) := by
  intro rows
  induction rows with
  | nil =>
    intro S _
    have : S.map (chainRows []) = S.map id :=
      List.map_congr_left (fun rec _ => rfl)
    rw [List.foldl_nil, this, List.map_id]
  | cons r rs ih =>
    intro S h
    rw [List.foldl_cons, stepFixed_eq_map (h r (List.mem_cons_self _ _))]
    rw [ih (S.map (phiRow r)) (fun r' hr' hacc => by
      rw [map_id_map_phi]
      exact h r' (List.mem_cons_of_mem _ hr') hacc)]
    rw [List.map_map]
    apply List.map_congr_left
    intro rec _
    rfl

theorem lastMatch_cons_pos {r : RowS} {rs : List RowS} {x : Str}
    (h : (acceptRow r && (suppliedId r == x)) = true) :
    lastMatch (r :: rs) x = some ((lastMatch rs x).getD r) := by
  rw [lastMatch, List.filter_cons, if_pos h, lastMatch]
  cases hfl : rs.filter (fun r' => acceptRow r' && (suppliedId r' == x)) with
  | nil => simp
  | cons a l =>
    rw [getLast?_cons_ne_nil (by simp)]
    cases hg : (a :: l).getLast? with
    | none =>
      rw [List.getLast?_eq_none_iff] at hg
      exact List.noConfusion hg
    | some y => simp

theorem lastMatch_cons_neg {r : RowS} {rs : List RowS} {x : Str}
    (h : (acceptRow r && (suppliedId r == x)) = false) :
    lastMatch (r :: rs) x = lastMatch rs x := by
  rw [lastMatch, List.filter_cons, if_neg (by rw [h]; simp), lastMatch]

theorem chainRows_lastMatch :
    ∀ (rows : List RowS) (rec : Rec),
      chainRows rows rec =
        match lastMatch rows rec.id with
        | none => rec
        | some r => updRec rec r (isBannedVal r) := by
  intro rows
  induction rows with
  | nil => intro rec; rfl
  | cons r rs ih =>
    intro rec
    show chainRows rs (phiRow r rec) = _
    by_cases hp : acceptRow r = true ∧ rec.id = suppliedId r
    · have hb : (acceptRow r && (suppliedId r == rec.id)) = true := by
        rw [hp.1, beq_iff_eq.mpr hp.2.symm]
        rfl
      have hphi : phiRow r rec = updRec rec r (isBannedVal r) := by
        rw [phiRow, if_pos hp]
      rw [hphi, ih, lastMatch_cons_pos hb, updRec_id]
      cases hlm : lastMatch rs rec.id with
      | none => simp
      | some r' =>
        simp only [Option.getD_some]
        rw [updRec_updRec]
    · have hb : (acceptRow r && (suppliedId r == rec.id)) = false := by
        cases ha : acceptRow r
        · rfl
        · cases hbeq : (suppliedId r == rec.id)
          · rfl
          · exact absurd ⟨ha, (beq_iff_eq.mp hbeq).symm⟩ hp
      have hphi : phiRow r rec = rec := by
        rw [phiRow, if_neg hp]
      rw [hphi, ih, lastMatch_cons_neg hb]

theorem frame_foldl :
    ∀ (rows : List RowS) (S : List Rec) (rec : Rec),
      (∀ r ∈ rows, ¬(acceptRow r = true ∧ suppliedId r = rec.id)) →
      rec ∈ rows.foldl stepFixed S → rec ∈ S := by
  intro rows
  induction rows with
  | nil => intro S rec _ h; exact h
  | cons r rs ih =>
    intro S rec hno hmem
    rw [List.foldl_cons] at hmem
    have h1 : rec ∈ stepFixed S r :=
      ih _ rec (fun r' hr' => hno r' (List.mem_cons_of_mem _ hr')) hmem
    have hnr := hno r (List.mem_cons_self _ _)
    rw [stepFixed] at h1
    split at h1
    · exact h1
    · split at h1
      · obtain ⟨rec0, hrec0, heq⟩ := List.mem_map.mp h1
        by_cases hcase : rec0.id = suppliedId r
        · rw [if_pos hcase] at heq
          exfalso
          apply hnr
          constructor
          · next hacc _ =>
            cases ha : acceptRow r
            · rw [ha] at hacc; simp at hacc
            · rfl
          · rw [← heq, updRec_id, hcase]
        · rw [if_neg hcase] at heq
          exact heq ▸ hrec0
      · rcases List.mem_append.mp h1 with h2 | h2
        · exact h2
        · exfalso
          apply hnr
          simp at h2
          constructor
          · next hacc _ =>
            cases ha : acceptRow r
            · rw [ha] at hacc; simp at hacc
            · rfl
          · rw [h2, mkRec_id]

theorem inv_lastMatch :
    ∀ (rows : List RowS) (S : List Rec),
      ∀ rec ∈ rows.foldl stepFixed S,
        ∀ r, lastMatch rows rec.id = some r →
          updRec rec r (isBannedVal r) = rec := by
  intro rows
  induction rows with
  | nil =>
    intro S rec _ r hlm
    rw [lastMatch] at hlm
    exact Option.noConfusion hlm
  | cons r0 rs ih =>
    intro S rec hrec r hlm
    rw [List.foldl_cons] at hrec
    cases hlm' : lastMatch rs rec.id with
    | some r' =>
      have : lastMatch (r0 :: rs) rec.id = some r' := by
        by_cases hb : (acceptRow r0 && (suppliedId r0 == rec.id)) = true
        · rw [lastMatch_cons_pos hb, hlm']
          rfl
        · rw [lastMatch_cons_neg (by
            cases hc : (acceptRow r0 && (suppliedId r0 == rec.id))
            · rfl
            · exact absurd hc hb), hlm']
      rw [this] at hlm
      injection hlm with hlm
      rw [← hlm]
      exact ih _ rec hrec r' hlm'
    | none =>
      have hnone : ∀ r' ∈ rs, ¬(acceptRow r' = true ∧ suppliedId r' = rec.id) := by
        intro r' hr' ⟨hacc, hsup⟩
        rw [lastMatch] at hlm'
        rw [List.getLast?_eq_none_iff] at hlm'
        have : r' ∈ rs.filter (fun q => acceptRow q && (suppliedId q == rec.id)) :=
          List.mem_filter.mpr ⟨hr', by rw [hacc, beq_iff_eq.mpr hsup]; rfl⟩
        rw [hlm'] at this
        exact List.not_mem_nil _ this
      have hr0 : acceptRow r0 = true ∧ suppliedId r0 = rec.id ∧ r = r0 := by
        by_cases hb : (acceptRow r0 && (suppliedId r0 == rec.id)) = true
        · rw [lastMatch_cons_pos hb, hlm'] at hlm
          injection hlm with hlm
          exact ⟨(Bool.and_eq_true_iff.mp hb).1,
            beq_iff_eq.mp (Bool.and_eq_true_iff.mp hb).2, hlm.symm⟩
        · rw [lastMatch_cons_neg (by
            cases hc : (acceptRow r0 && (suppliedId r0 == rec.id))
            · rfl
            · exact absurd hc hb), hlm'] at hlm
          exact Option.noConfusion hlm
      obtain ⟨hacc0, hsup0, hreq⟩ := hr0
      rw [hreq]
      have hrec0 : rec ∈ stepFixed S r0 := frame_foldl rs _ rec hnone hrec
      rw [stepFixed, if_neg (by rw [hacc0]; simp)] at hrec0
      split at hrec0
      · obtain ⟨rec0, hrec0m, heq⟩ := List.mem_map.mp hrec0
        by_cases hcase : rec0.id = suppliedId r0
        · rw [if_pos hcase] at heq
          rw [← heq, updRec_updRec]
        · rw [if_neg hcase] at heq
          exfalso
          apply hcase
          rw [heq, hsup0]
      · next hnex =>
        rcases List.mem_append.mp hrec0 with h2 | h2
        · exfalso
          exact hnex ⟨rec, h2, hsup0.symm⟩
        · simp at h2
          rw [h2, updRec_mkRec]

theorem foldl_stepFixed_idem (rows : List RowS) (S : List Rec) :
    rows.foldl stepFixed (rows.foldl stepFixed S) = rows.foldl stepFixed S := by
  rw [foldl_map_fusion rows (rows.foldl stepFixed S)
    (fun r hr hacc => ids_cover rows S r hr hacc)]
  have : (rows.foldl stepFixed S).map (chainRows rows) =
      (rows.foldl stepFixed S).map id := by
    apply List.map_congr_left
    intro rec hrec
    rw [chainRows_lastMatch]
    cases hlm : lastMatch rows rec.id with
    | none => rfl
    | some r => exact inv_lastMatch rows S rec hrec r hlm
  rw [this, List.map_id]

theorem importGoE_rollback (boom : RowS → Bool) (gen : Nat → Str) (S0 : List Rec) :
    ∀ (rows : List RowS) (sn : List Rec × Nat),
      (∃ r ∈ rows, acceptRow r = true ∧ boom r = true) →
      (importGoE boom gen S0 rows sn).1 = S0 := by
  intro rows
  induction rows with
  | nil => intro sn h; simp at h
  | cons r rs ih =>
    intro sn hex
    rw [importGoE]
    cases ha : acceptRow r with
    | false =>
      rw [if_pos (by decide)]
      apply ih
      obtain ⟨r', hr', hacc', hboom'⟩ := hex
      rcases List.mem_cons.mp hr' with h' | h'
      · subst h'
        rw [ha] at hacc'
        exact Bool.noConfusion hacc'
      · exact ⟨r', h', hacc', hboom'⟩
    | true =>
      rw [if_neg (by decide)]
      cases hb : boom r with
      | true => rw [if_pos rfl]
      | false =>
        rw [if_neg (by simp)]
        apply ih
        obtain ⟨r', hr', hacc', hboom'⟩ := hex
        rcases List.mem_cons.mp hr' with h' | h'
        · subst h'
          rw [hb] at hboom'
          exact Bool.noConfusion hboom'
        · exact ⟨r', h', hacc', hboom'⟩

theorem importGoE_commit (boom : RowS → Bool) (gen : Nat → Str) (S0 : List Rec) :
    ∀ (rows : List RowS) (sn : List Rec × Nat),
      (∀ r ∈ rows, acceptRow r = true → boom r = false) →
      importGoE boom gen S0 rows sn = rows.foldl (importStep gen) sn := by
  intro rows
  induction rows with
  | nil => intro sn _; rfl
  | cons r rs ih =>
    intro sn hno
    rw [importGoE, List.foldl_cons]
    cases ha : acceptRow r with
    | false =>
      rw [if_pos (by decide), importStep_skip ha]
      exact ih sn (fun r' hr' => hno r' (List.mem_cons_of_mem _ hr'))
    | true =>
      rw [if_neg (by decide),
        if_neg (by rw [hno r (List.mem_cons_self _ _) ha]; simp)]
      exact ih _ (fun r' hr' => hno r' (List.mem_cons_of_mem _ hr'))

theorem uuidAux_length (f : Nat → Nat) :
    ∀ (tpl : Str) (k : Nat), (uuidAux f tpl k).length = tpl.length := by
  intro tpl
  induction tpl with
  | nil => intro k; rfl
  | cons c cs ih =>
    intro k
    rw [uuidAux]
    by_cases hx : c = 'x'
    · rw [if_pos hx, List.length_cons, List.length_cons, ih]
    · rw [if_neg hx]
      by_cases hy : c = 'y'
      · rw [if_pos hy, List.length_cons, List.length_cons, ih]
      · rw [if_neg hy, List.length_cons, List.length_cons, ih]

theorem uuidv4_length (f : Nat → Nat) : (uuidv4 f).length = 36 := by
  rw [uuidv4, uuidAux_length]
  decide

theorem uuidv4_ne_nil (f : Nat → Nat) : uuidv4 f ≠ [] := by
  intro h
  have := uuidv4_length f
  rw [h] at this
  simp at this

theorem resolveId_ne_nil {gen : Nat → Str} (hgen : ∀ m, gen m ≠ [])
    (n : Nat) (r : RowS) : (resolveId gen n r).1 ≠ [] := by
  cases hg : fld r "id".toList with
  | none =>
    simp only [resolveId, hg]
    exact hgen n
  | some v =>
    simp only [resolveId, hg]
    by_cases hv : v.isEmpty = true
    · rw [if_pos hv]
      exact hgen n
    · rw [if_neg hv]
      simpa [List.isEmpty_iff] using hv

theorem importStep_ids {gen : Nat → Str} (hgen : ∀ m, gen m ≠ [])
    {sn : List Rec × Nat} (hids : ∀ rec ∈ sn.1, rec.id ≠ []) (r : RowS) :
    ∀ rec ∈ (importStep gen sn r).1, rec.id ≠ [] := by
  intro rec hrec
  rw [importStep_eq] at hrec
  split at hrec
  · exact hids rec hrec
  · split at hrec
    · simp only at hrec
      obtain ⟨rec0, hrec0, heq⟩ := List.mem_map.mp hrec
      by_cases hcase : rec0.id = (resolveId gen sn.2 r).1
      · rw [if_pos hcase] at heq
        rw [← heq, updRec_id]
        exact hids rec0 hrec0
      · rw [if_neg hcase] at heq
        rw [← heq]
        exact hids rec0 hrec0
    · simp only at hrec
      rcases List.mem_append.mp hrec with h2 | h2
      · exact hids rec h2
      · simp at h2
        rw [h2, mkRec_id]
        exact resolveId_ne_nil hgen sn.2 r

theorem runImport_ids {gen : Nat → Str} (hgen : ∀ m, gen m ≠ []) :
    ∀ (rows : List RowS) (sn : List Rec × Nat),
      (∀ rec ∈ sn.1, rec.id ≠ []) →
      ∀ rec ∈ (rows.foldl (importStep gen) sn).1, rec.id ≠ [] := by
  intro rows
  induction rows with
  | nil => intro sn h rec hrec; exact h rec hrec
  | cons r rs ih =>
    intro sn h rec hrec
    rw [List.foldl_cons] at hrec
    exact ih _ (importStep_ids hgen h r) rec hrec

end ScriptJS

/-!
## Claims C2, C5, C9, C10 — the batch import
-/

/-- C2: if any unexpected exception fires while processing a validated
row mid-batch, the committed store after the import equals the
pre-import store (the `catch` runs `ROLLBACK`); and when no such
exception fires, the import commits normally, so per-row rejections for
missing names are not failures and trigger no rollback. -/
theorem c2_import_atomic (boom : ScriptJS.RowS → Bool) (gen : Nat → Str)
    (S : List ScriptJS.Rec) (n : Nat) (csv : Str) :
    ((∃ r ∈ ScriptJS.parseCsv csv, ScriptJS.acceptRow r = true ∧ boom r = true) →
      (ScriptJS.handleImportE boom gen S n csv).1 = S) ∧
    ((∀ r ∈ ScriptJS.parseCsv csv, ScriptJS.acceptRow r = true → boom r = false) →
      ScriptJS.handleImportE boom gen S n csv = ScriptJS.handleImport gen S n csv) := by
  constructor
  · intro hex
    exact ScriptJS.importGoE_rollback boom gen S (ScriptJS.parseCsv csv) (S, n) hex
  · intro hno
    rw [ScriptJS.handleImportE, ScriptJS.handleImport,
      ScriptJS.importGoE_commit boom gen S (ScriptJS.parseCsv csv) (S, n) hno]
    rfl

/-- Witness for C2: a three-row import whose middle row explodes rolls
back to the empty store; with no exception the same text imports both
named rows, skipping only the unnamed one. -/
theorem c2_import_atomic_witness :
    ((ScriptJS.handleImportE
        (fun r => ScriptJS.fld r "firstName".toList == some "Bad".toList)
        (fun _ => "u0".toList) [] 0
        "id,firstName,lastName\nv1,Jane,Doe\nv2,Bad,Guy\nv3,Ann,Lee".toList).1 = []) ∧
    (ScriptJS.handleImportE (fun _ => false) (fun _ => "u0".toList) [] 0
        "id,firstName,lastName\nv1,Jane,Doe\nv2,,Guy\nv3,Ann,Lee".toList =
      ScriptJS.handleImport (fun _ => "u0".toList) [] 0
        "id,firstName,lastName\nv1,Jane,Doe\nv2,,Guy\nv3,Ann,Lee".toList) :=
  ⟨(c2_import_atomic _ _ [] 0 _).1 (by decide),
   (c2_import_atomic _ _ [] 0 _).2 (by decide)⟩

/-- C5 (counterexample): importing a CSV whose data row supplies no id
twice yields two records where one import yields one, because each
pass draws a fresh v4 uuid for the id-less row and inserts anew.  The
uuid supply shown (all-zero nibbles, then all-one nibbles) is a
realizable pair of `Math.random` draws. -/
theorem c5_import_counterexample :
    (ScriptJS.handleImport (fun n => ScriptJS.uuidv4 (fun _ => n)) [] 0
      "id,firstName,lastName,flatNumber,phoneNumber,dateOfBirth,scannedIdPicUrl,isBanned,notes,generalNotes\n,Jane,Doe,,,,,,,".toList).1.length = 1 ∧
    (ScriptJS.handleImport (fun n => ScriptJS.uuidv4 (fun _ => n))
      (ScriptJS.handleImport (fun n => ScriptJS.uuidv4 (fun _ => n)) [] 0
        "id,firstName,lastName,flatNumber,phoneNumber,dateOfBirth,scannedIdPicUrl,isBanned,notes,generalNotes\n,Jane,Doe,,,,,,,".toList).1
      (ScriptJS.handleImport (fun n => ScriptJS.uuidv4 (fun _ => n)) [] 0
        "id,firstName,lastName,flatNumber,phoneNumber,dateOfBirth,scannedIdPicUrl,isBanned,notes,generalNotes\n,Jane,Doe,,,,,,,".toList).2
      "id,firstName,lastName,flatNumber,phoneNumber,dateOfBirth,scannedIdPicUrl,isBanned,notes,generalNotes\n,Jane,Doe,,,,,,,".toList).1.length = 2 := by
  constructor
  · decide
  · decide

/-- C5 (amended): when every row accepted by the name gate supplies a
non-empty id of its own, importing the same CSV twice in succession
leaves the store exactly as one import does — same records, hence the
same count and field values. -/
theorem c5_import_idempotent (gen : Nat → Str) (S : List ScriptJS.Rec)
    (n : Nat) (csv : Str)
    (hid : ∀ r ∈ ScriptJS.parseCsv csv, ScriptJS.acceptRow r = true →
      ScriptJS.truthy (ScriptJS.fld r "id".toList) = true) :
    (ScriptJS.handleImport gen (ScriptJS.handleImport gen S n csv).1
        (ScriptJS.handleImport gen S n csv).2 csv).1 =
      (ScriptJS.handleImport gen S n csv).1 := by
  have hrun : ∀ (S' : List ScriptJS.Rec) (n' : Nat),
      ScriptJS.handleImport gen S' n' csv =
        ((ScriptJS.parseCsv csv).foldl ScriptJS.stepFixed S', n') := by
    intro S' n'
    rw [ScriptJS.handleImport]
    exact ScriptJS.runImport_fixed gen _ S' n' hid
  rw [hrun S n, hrun]
  exact ScriptJS.foldl_stepFixed_idem _ _

/-- Witness for the amended C5 theorem: a CSV whose rows all carry ids
loads idempotently. -/
theorem c5_import_idempotent_witness :
    (∀ r ∈ ScriptJS.parseCsv "id,firstName,lastName\nv1,Jane,Doe\nv2,Ann,Lee".toList,
      ScriptJS.acceptRow r = true →
      ScriptJS.truthy (ScriptJS.fld r "id".toList) = true) ∧
    (ScriptJS.handleImport (fun _ => "u0".toList)
        (ScriptJS.handleImport (fun _ => "u0".toList) [] 0
          "id,firstName,lastName\nv1,Jane,Doe\nv2,Ann,Lee".toList).1
        (ScriptJS.handleImport (fun _ => "u0".toList) [] 0
          "id,firstName,lastName\nv1,Jane,Doe\nv2,Ann,Lee".toList).2
        "id,firstName,lastName\nv1,Jane,Doe\nv2,Ann,Lee".toList).1 =
      (ScriptJS.handleImport (fun _ => "u0".toList) [] 0
        "id,firstName,lastName\nv1,Jane,Doe\nv2,Ann,Lee".toList).1 :=
  ⟨by decide, c5_import_idempotent _ _ _ _ (by decide)⟩

/-- C9: an import row that updates an existing record leaves every
stored record's `generalNotes` unchanged (the `UPDATE` never lists that
column); a row that inserts appends a record whose `generalNotes` is
the empty string, regardless of any `generalNotes` value in the CSV
row. -/
theorem c9_generalNotes_frame (gen : Nat → Str) (sn : List ScriptJS.Rec × Nat)
    (r : ScriptJS.RowS) (hacc : ScriptJS.acceptRow r = true) :
    ((∃ rec ∈ sn.1, rec.id = (ScriptJS.resolveId gen sn.2 r).1) →
      (ScriptJS.importStep gen sn r).1.map ScriptJS.Rec.generalNotes =
        sn.1.map ScriptJS.Rec.generalNotes) ∧
    ((¬∃ rec ∈ sn.1, rec.id = (ScriptJS.resolveId gen sn.2 r).1) →
      (ScriptJS.importStep gen sn r).1 =
        sn.1 ++ [ScriptJS.mkRec (ScriptJS.resolveId gen sn.2 r).1 r
          (ScriptJS.isBannedVal r)] ∧
      (ScriptJS.mkRec (ScriptJS.resolveId gen sn.2 r).1 r
        (ScriptJS.isBannedVal r)).generalNotes = some []) := by
  rw [ScriptJS.importStep_eq, if_neg (by rw [hacc]; simp)]
  constructor
  · intro hex
    rw [if_pos hex]
    simp only [List.map_map]
    apply List.map_congr_left
    intro rec _
    show (if rec.id = (ScriptJS.resolveId gen sn.2 r).1 then
        ScriptJS.updRec rec r (ScriptJS.isBannedVal r) else rec).generalNotes =
      rec.generalNotes
    by_cases hcase : rec.id = (ScriptJS.resolveId gen sn.2 r).1
    · rw [if_pos hcase, ScriptJS.updRec_generalNotes]
    · rw [if_neg hcase]
  · intro hnex
    rw [if_neg hnex]
    exact ⟨rfl, rfl⟩

/-- Witness for C9: a store with Jane (generalNotes "keep") updated by a
row carrying different generalNotes keeps "keep"; the same row against
an empty store inserts with empty generalNotes. -/
theorem c9_generalNotes_frame_witness :
    ((ScriptJS.importStep (fun _ => "u0".toList)
        ([⟨"v1".toList, some "Jane".toList, some "Doe".toList, none, none, none,
           none, 0, none, some "keep".toList⟩], 0)
        [("id".toList, some "v1".toList),
         ("firstName".toList, some "Jane".toList),
         ("lastName".toList, some "Doe".toList),
         ("generalNotes".toList, some "clobber".toList)]).1.map
          ScriptJS.Rec.generalNotes =
      [⟨"v1".toList, some "Jane".toList, some "Doe".toList, none, none, none,
         none, 0, none, some "keep".toList⟩].map ScriptJS.Rec.generalNotes) ∧
    ((ScriptJS.importStep (fun _ => "u0".toList) (([] : List ScriptJS.Rec), 0)
        [("id".toList, some "v1".toList),
         ("firstName".toList, some "Jane".toList),
         ("lastName".toList, some "Doe".toList),
         ("generalNotes".toList, some "clobber".toList)]).1 =
      [] ++ [ScriptJS.mkRec
        (ScriptJS.resolveId (fun _ => "u0".toList) 0
          [("id".toList, some "v1".toList),
           ("firstName".toList, some "Jane".toList),
           ("lastName".toList, some "Doe".toList),
           ("generalNotes".toList, some "clobber".toList)]).1
        [("id".toList, some "v1".toList),
         ("firstName".toList, some "Jane".toList),
         ("lastName".toList, some "Doe".toList),
         ("generalNotes".toList, some "clobber".toList)]
        (ScriptJS.isBannedVal
          [("id".toList, some "v1".toList),
           ("firstName".toList, some "Jane".toList),
           ("lastName".toList, some "Doe".toList),
           ("generalNotes".toList, some "clobber".toList)])] ∧
      (ScriptJS.mkRec
        (ScriptJS.resolveId (fun _ => "u0".toList) 0
          [("id".toList, some "v1".toList),
           ("firstName".toList, some "Jane".toList),
           ("lastName".toList, some "Doe".toList),
           ("generalNotes".toList, some "clobber".toList)]).1
        [("id".toList, some "v1".toList),
         ("firstName".toList, some "Jane".toList),
         ("lastName".toList, some "Doe".toList),
         ("generalNotes".toList, some "clobber".toList)]
        (ScriptJS.isBannedVal
          [("id".toList, some "v1".toList),
           ("firstName".toList, some "Jane".toList),
           ("lastName".toList, some "Doe".toList),
           ("generalNotes".toList, some "clobber".toList)])).generalNotes =
        some []) :=
  ⟨(c9_generalNotes_frame _ _ _ (by decide)).1 (by decide),
   (c9_generalNotes_frame _ _ _ (by decide)).2 (by decide)⟩

/-- C10: every record inserted or updated by the batch import has a
non-empty id — the row's own id when truthy, otherwise a freshly drawn
`uuidv4` — and `uuidv4` always yields a 36-character (hence non-empty)
string, whatever the random draws. -/
theorem c10_import_ids_nonempty (rand : Nat → Nat → Nat)
    (S : List ScriptJS.Rec) (n : Nat) (csv : Str)
    (hS : ∀ rec ∈ S, rec.id ≠ []) :
    (∀ rec ∈ (ScriptJS.handleImport (fun k => ScriptJS.uuidv4 (rand k))
        S n csv).1, rec.id ≠ []) ∧
    (∀ f, (ScriptJS.uuidv4 f).length = 36 ∧ ScriptJS.uuidv4 f ≠ []) := by
  constructor
  · intro rec hrec
    exact ScriptJS.runImport_ids (fun m => ScriptJS.uuidv4_ne_nil (rand m))
      (ScriptJS.parseCsv csv) (S, n) hS rec hrec
  · intro f
    exact ⟨ScriptJS.uuidv4_length f, ScriptJS.uuidv4_ne_nil f⟩

/-- Witness for C10: importing a mixed file (one row with id, one
without) from the empty store leaves only non-empty ids. -/
theorem c10_import_ids_nonempty_witness :
    (∀ rec ∈ ([] : List ScriptJS.Rec), rec.id ≠ []) ∧
    (∀ rec ∈ (ScriptJS.handleImport (fun k => ScriptJS.uuidv4 (fun _ => k))
        [] 0 "id,firstName,lastName\nv1,Jane,Doe\n,Ann,Lee".toList).1,
      rec.id ≠ []) :=
  ⟨fun rec hrec => absurd hrec (List.not_mem_nil rec),
   (c10_import_ids_nonempty (fun k _ => k) [] 0 _
     (fun rec hrec => absurd hrec (List.not_mem_nil rec))).1⟩

/-!
## Claim C6 — the search handler on the spec's example store
-/

/-- C6: on the store `[Jane Doe, Janet Smith]` the query `"jane doe"`
returns Jane Doe alone as an exact match (her lowercased
`"firstName lastName"` equals the whole query), while `"ja"` returns
both records as candidates, every token being a case-insensitive
substring of a name field. -/
theorem c6_search_examples :
    (ScriptJS.handleSearch "jane doe".toList
        [⟨"1".toList, "Jane".toList, "Doe".toList⟩,
         ⟨"2".toList, "Janet".toList, "Smith".toList⟩] =
      ScriptJS.SearchOutcome.exactMatch
        ⟨"1".toList, "Jane".toList, "Doe".toList⟩) ∧
    (ScriptJS.handleSearch "ja".toList
        [⟨"1".toList, "Jane".toList, "Doe".toList⟩,
         ⟨"2".toList, "Janet".toList, "Smith".toList⟩] =
      ScriptJS.SearchOutcome.results
        [⟨"1".toList, "Jane".toList, "Doe".toList⟩,
         ⟨"2".toList, "Janet".toList, "Smith".toList⟩]) := by
  constructor
  · decide
  · decide

/-!
## Claim C7 — the upsert of the save handler never duplicates an id
-/

theorem updateVisitors_cons (v : Row) (vs : List Row) (u : Row) :
    MainJS.updateVisitors (v :: vs) u =
      if MainJS.idMatch v u then u :: vs
      else v :: MainJS.updateVisitors vs u := by
  rw [MainJS.updateVisitors, MainJS.updateVisitors]
  cases him : MainJS.idMatch v u with
  | true =>
    rw [if_pos rfl, List.findIdx?_cons, him, if_pos rfl]
    rfl
  | false =>
    rw [if_neg (by simp), List.findIdx?_cons, him, if_neg (by simp),
      List.findIdx?_succ]
    cases hf : vs.findIdx? (fun v => MainJS.idMatch v u) with
    | none => rw [Option.map_none']; rfl
    | some i => rw [Option.map_some']; rfl

theorem idMatch_tid (v u : Row) (h : MainJS.idMatch v u = true) :
    MainJS.rowIdTrim v = MainJS.rowIdTrim u := by
  rw [MainJS.idMatch] at h
  rw [MainJS.rowIdTrim, MainJS.rowIdTrim]
  cases hv : getF v ("id".toList) with
  | none => rw [hv] at h; simp at h
  | some a =>
    rw [hv] at h
    cases hu : getF u ("id".toList) with
    | none => rw [hu] at h; simp at h
    | some b =>
      rw [hu] at h
      have h' : (!a.isEmpty && !b.isEmpty && trimS a == trimS b) = true := h
      simp only [Bool.and_eq_true, beq_iff_eq] at h'
      show trimS a = trimS b
      tauto

theorem rowIdTrim_cases (v : Row) (h : MainJS.rowIdTrim v ≠ []) :
    ∃ a, getF v ("id".toList) = some a ∧ trimS a ≠ [] := by
  rw [MainJS.rowIdTrim] at h
  cases hv : getF v ("id".toList) with
  | none =>
    rw [hv] at h
    exact absurd rfl h
  | some a =>
    rw [hv] at h
    exact ⟨a, rfl, h⟩

theorem idMatch_ne_tid (v u : Row) (hv : MainJS.rowIdTrim v ≠ [])
    (h : MainJS.idMatch v u = false) :
    MainJS.rowIdTrim v ≠ MainJS.rowIdTrim u := by
  obtain ⟨a, ha, hta⟩ := rowIdTrim_cases v hv
  rw [MainJS.idMatch] at h
  rw [MainJS.rowIdTrim, MainJS.rowIdTrim, ha]
  rw [ha] at h
  have hane : a ≠ [] := by
    intro hnil
    rw [hnil] at hta
    exact hta rfl
  cases hu : getF u ("id".toList) with
  | none =>
    show trimS a ≠ []
    exact hta
  | some b =>
    rw [hu] at h
    have h' : (!a.isEmpty && !b.isEmpty && trimS a == trimS b) = false := h
    show trimS a ≠ trimS b
    by_cases hbe : b = []
    · intro heq
      rw [hbe] at heq
      exact hta (by rw [heq]; rfl)
    · intro heq
      have htrue : (!a.isEmpty && !b.isEmpty && trimS a == trimS b) = true := by
        simp [List.isEmpty_iff, hane, hbe, heq]
      rw [htrue] at h'
      exact Bool.noConfusion h'

theorem mem_updateVisitors {x u : Row} :
    ∀ {vs : List Row}, x ∈ MainJS.updateVisitors vs u → x ∈ vs ∨ x = u := by
  intro vs
  induction vs with
  | nil =>
    intro hx
    rw [show MainJS.updateVisitors [] u = [u] from rfl] at hx
    right
    exact List.mem_singleton.mp hx
  | cons v vs ih =>
    intro hx
    rw [updateVisitors_cons] at hx
    by_cases him : MainJS.idMatch v u = true
    · rw [if_pos him] at hx
      rcases List.mem_cons.mp hx with h1 | h1
      · right; exact h1
      · left; exact List.mem_cons_of_mem _ h1
    · rw [if_neg him] at hx
      rcases List.mem_cons.mp hx with h1 | h1
      · left
        rw [h1]
        exact List.mem_cons_self _ _
      · rcases ih h1 with h2 | h2
        · left; exact List.mem_cons_of_mem _ h2
        · right; exact h2

theorem updateVisitors_no_match {u : Row} :
    ∀ {vs : List Row}, (∀ v ∈ vs, MainJS.idMatch v u = false) →
      MainJS.updateVisitors vs u = vs ++ [u] := by
  intro vs
  induction vs with
  | nil => intro _; rfl
  | cons v vs ih =>
    intro hall
    rw [updateVisitors_cons,
      if_neg (by rw [hall v (List.mem_cons_self _ _)]; simp),
      ih (fun w hw => hall w (List.mem_cons_of_mem _ hw))]
    rfl

theorem updateVisitors_match {u : Row} :
    ∀ {vs : List Row}, (∃ v ∈ vs, MainJS.idMatch v u = true) →
      ∃ i, i < vs.length ∧ MainJS.updateVisitors vs u = vs.set i u := by
  intro vs
  induction vs with
  | nil => intro h; simp at h
  | cons v vs ih =>
    intro hex
    by_cases him : MainJS.idMatch v u = true
    · refine ⟨0, Nat.succ_pos _, ?_⟩
      rw [updateVisitors_cons, if_pos him]
      rfl
    · obtain ⟨w, hw, hwm⟩ := hex
      rcases List.mem_cons.mp hw with h1 | h1
      · rw [h1] at hwm
        exact absurd hwm him
      · obtain ⟨i, hi, heq⟩ := ih ⟨w, h1, hwm⟩
        refine ⟨i + 1, Nat.succ_lt_succ hi, ?_⟩
        rw [updateVisitors_cons, if_neg him, heq]
        rfl

theorem updateVisitors_nodup {u : Row} :
    ∀ {vs : List Row}, (∀ v ∈ vs, MainJS.rowIdTrim v ≠ []) →
      (vs.map MainJS.rowIdTrim).Nodup →
      ((MainJS.updateVisitors vs u).map MainJS.rowIdTrim).Nodup := by
  intro vs
  induction vs with
  | nil =>
    intro _ _
    rw [show MainJS.updateVisitors [] u = [u] from rfl]
    exact List.nodup_singleton _
  | cons v vs ih =>
    intro hne hnd
    rw [List.map_cons, List.nodup_cons] at hnd
    rw [updateVisitors_cons]
    by_cases him : MainJS.idMatch v u = true
    · rw [if_pos him, List.map_cons, List.nodup_cons]
      refine ⟨?_, hnd.2⟩
      rw [← idMatch_tid v u him]
      exact hnd.1
    · rw [if_neg him, List.map_cons, List.nodup_cons]
      refine ⟨?_, ih (fun w hw => hne w (List.mem_cons_of_mem _ hw)) hnd.2⟩
      intro hmem
      obtain ⟨x, hx, hxe⟩ := List.mem_map.mp hmem
      rcases mem_updateVisitors hx with h1 | h1
      · exact hnd.1 (hxe ▸ List.mem_map_of_mem MainJS.rowIdTrim h1)
      · have hvne := hne v (List.mem_cons_self _ _)
        have hneq := idMatch_ne_tid v u hvne (Bool.eq_false_iff.mpr him)
        apply hneq
        rw [← hxe, h1]

/-- C7: the upsert behind `dialog:updateAndSaveCsvFile`, applied to a
row set whose trimmed ids are non-empty and pairwise distinct, keeps
the trimmed ids pairwise distinct: a row matching the record's id (by
the handler's truthy, trim-equal comparison) is replaced in place at
its position, and otherwise the record is appended at the end, so no
duplicate id is ever created. -/
theorem c7_upsert_no_duplicate (visitors : List Row) (u : Row)
    (hne : ∀ v ∈ visitors, MainJS.rowIdTrim v ≠ [])
    (hnd : (visitors.map MainJS.rowIdTrim).Nodup) :
    ((MainJS.updateVisitors visitors u).map MainJS.rowIdTrim).Nodup ∧
    ((∃ v ∈ visitors, MainJS.idMatch v u = true) →
      ∃ i, i < visitors.length ∧
        MainJS.updateVisitors visitors u = visitors.set i u) ∧
    ((∀ v ∈ visitors, MainJS.idMatch v u = false) →
      MainJS.updateVisitors visitors u = visitors ++ [u]) :=
  ⟨updateVisitors_nodup hne hnd,
   fun hex => updateVisitors_match hex,
   fun hall => updateVisitors_no_match hall⟩

/-- Witness for C7: upserting Janet under the existing id `v1` into a
one-row set with id `v1` keeps the ids duplicate-free. -/
theorem c7_upsert_no_duplicate_witness :
    (∀ v ∈ [[(("id".toList : Str), ("v1".toList : Str))]],
      MainJS.rowIdTrim v ≠ []) ∧
    (([[(("id".toList : Str), ("v1".toList : Str))]].map
        MainJS.rowIdTrim).Nodup) ∧
    (((MainJS.updateVisitors [[(("id".toList : Str), ("v1".toList : Str))]]
        [("id".toList, "v1".toList),
         ("firstName".toList, "Janet".toList)]).map
          MainJS.rowIdTrim).Nodup ∧
     ((∃ v ∈ [[(("id".toList : Str), ("v1".toList : Str))]],
        MainJS.idMatch v
          [("id".toList, "v1".toList),
           ("firstName".toList, "Janet".toList)] = true) →
       ∃ i, i < ([[(("id".toList : Str), ("v1".toList : Str))]] :
           List Row).length ∧
         MainJS.updateVisitors [[(("id".toList : Str), ("v1".toList : Str))]]
           [("id".toList, "v1".toList),
            ("firstName".toList, "Janet".toList)] =
           [[(("id".toList : Str), ("v1".toList : Str))]].set i
             [("id".toList, "v1".toList),
              ("firstName".toList, "Janet".toList)]) ∧
     ((∀ v ∈ [[(("id".toList : Str), ("v1".toList : Str))]],
        MainJS.idMatch v
          [("id".toList, "v1".toList),
           ("firstName".toList, "Janet".toList)] = false) →
       MainJS.updateVisitors [[(("id".toList : Str), ("v1".toList : Str))]]
         [("id".toList, "v1".toList),
          ("firstName".toList, "Janet".toList)] =
         [[(("id".toList : Str), ("v1".toList : Str))]] ++
           [[("id".toList, "v1".toList),
             ("firstName".toList, "Janet".toList)]])) :=
  ⟨by decide, by decide,
   c7_upsert_no_duplicate _ _ (by decide) (by decide)⟩

/-!
## Claim C8 — export with no remembered path
-/

/-- C8: invoked with no remembered file path, the save handler fails
(success flag `false`) with the user-visible error message, and the
trace of file operations is empty — nothing is read or written. -/
theorem c8_no_path_no_write (fileContent : Str) (u : Row) :
    (MainJS.updateAndSaveCsvFile none fileContent u).1.success = false ∧
    (MainJS.updateAndSaveCsvFile none fileContent u).1.error =
      some "No file has been selected for saving yet.".toList ∧
    (MainJS.updateAndSaveCsvFile none fileContent u).2 = [] :=
  ⟨rfl, rfl, rfl⟩
